import Mathlib

/-! NASA media download server (`nasa_mcp/index.js`): bulk acquisition engine.

A shallow embedding of the batch download logic of `NASAMCPServer`:
file-name resolution (`getUniqueFilename`), content de-duplication
(`checkDuplicate`), the two batch loops (`downloadMarsPhotos`,
`downloadNASAMedia` with `downloadNASAImage` / `downloadNASAVideo`) and the
Fisher-Yates shuffle used under `order = 'random'`.

Modelling conventions.
* JS strings are lists of characters (`Str`).
* The destination directory is the finite list `dir` of the names `n` for which
  `fs.existsSync(path.join(downloadDir, n))` holds; a completed download adds a
  name, `fs.unlinkSync` removes it.
* The network is an oracle: every candidate is paired with the outcome of its
  single `downloadFile` call (`FetchOutcome`), so a batch is quantified over
  every pattern of successes and failures.
* A file's MD5 digest is a string `hash`; its byte size is a natural number.
* `path.basename`, `path.extname` are Node's POSIX versions.
* After a `downloadFile` that resolved, the synchronous reads of the stored file
  (`readFileSync`, `statSync`) and `unlinkSync` succeed.
* Counters are unbounded natural numbers, rendered in decimal.
-/

namespace NasaMcp

/-- JS strings, as lists of characters. -/
abbrev Str := List Char

/-! ## Node `path` helpers (POSIX flavour) -/

/-- `path.basename(p)`: trailing slashes are ignored, then the part after the
last remaining slash is returned. -/
def basename (p : Str) : Str :=
  ((p.reverse.dropWhile (· == '/')).takeWhile (· != '/')).reverse

/-- `path.extname(p)`: within the last path component, the text from the last
dot to the end; empty when there is no dot, when the last dot is the first
character of the component, or when the component is exactly `..`. -/
def extname (p : Str) : Str :=
  let c := basename p
  match c.reverse.dropWhile (· != '.') with
  | [] => []
  | _ :: before =>
    if before = [] then []
    else if c = ['.', '.'] then []
    else '.' :: (c.reverse.takeWhile (· != '.')).reverse

/-- `path.basename(p, suffix)`: as `path.basename(p)`, with `suffix` removed
from the end of the component when the component ends with it and is not equal
to it; Node returns the empty string when `suffix` is the whole of `p`. -/
def basenameSuffix (p suffix : Str) : Str :=
  if suffix = [] ∨ p.length < suffix.length then basename p
  else if suffix = p then []
  else
    let c := basename p
    if suffix <:+ c ∧ c ≠ suffix then c.take (c.length - suffix.length) else c

/-- `filename.split('?')[0]`: the text before the first question mark. -/
def stripQuery (s : Str) : Str := s.takeWhile (· != '?')

/-- Template-literal rendering of a non-negative integer counter: decimal. -/
def numToString (n : Nat) : Str := Nat.toDigits 10 n

/-! ## `getUniqueFilename` -/

/-- The name tried at round `counter` of `getUniqueFilename`:
`${nameWithoutExt}_${counter}${ext}`. -/
def suffixedName (originalFilename : Str) (counter : Nat) : Str :=
  let ext := extname originalFilename
  let nameWithoutExt := basenameSuffix originalFilename ext
  nameWithoutExt ++ "_".toList ++ numToString counter ++ ext

/-- The `while (fs.existsSync(...))` loop of `getUniqueFilename`, with the loop
variables `filename` and `counter` as arguments and a bound on the number of
tests of the loop condition; `none` when the bound is exhausted. -/
def getUniqueFilenameLoop (dir : List Str) (originalFilename : Str) :
    Nat → Str → Nat → Option Str
  | 0, _, _ => none
  | fuel + 1, filename, counter =>
    if filename ∈ dir then
      getUniqueFilenameLoop dir originalFilename fuel
        (suffixedName originalFilename counter) (counter + 1)
    else some filename

/-- `getUniqueFilename(downloadDir, originalFilename)`. The loop is run with
`dir.length + 2` tests of its condition, which `getUniqueFilenameLoop_total`
shows is always enough. -/
def getUniqueFilename (dir : List Str) (originalFilename : Str) : Str :=
  (getUniqueFilenameLoop dir originalFilename (dir.length + 2) originalFilename 1).getD
    originalFilename

/-! ## `checkDuplicate` -/

/-- An element of `existingHashes`: `{ hash, size }`. -/
structure HashRecord where
  hash : Str
  size : Nat
deriving DecidableEq, Repr

/-- `Math.abs(a - b)` on byte sizes. -/
def absDiff (a b : Nat) : Nat := Int.natAbs ((a : Int) - (b : Int))

/-- The `for (const existing of existingHashes)` scan of `checkDuplicate`:
`true` as soon as a record has the same hash or a size less than 1024 bytes
away. -/
def scanDuplicate (hash : Str) (size : Nat) : List HashRecord → Bool
  | [] => false
  | existing :: rest =>
    if existing.hash = hash ∨ absDiff existing.size size < 1024 then true
    else scanDuplicate hash size rest

/-- `checkDuplicate(filePath, existingHashes)` for a file with digest `hash`
and `size` bytes: the returned flag and the list `existingHashes` afterwards
(a record is pushed only when the scan found nothing). -/
def checkDuplicate (hash : Str) (size : Nat) (existingHashes : List HashRecord) :
    Bool × List HashRecord :=
  if scanDuplicate hash size existingHashes then (true, existingHashes)
  else (false, existingHashes ++ [{ hash := hash, size := size }])

/-! ## The file system and the network, as seen by one batch -/

/-- A completed write creates the file `name` in the directory. -/
def writeFile (dir : List Str) (name : Str) : List Str :=
  if name ∈ dir then dir else name :: dir

/-- `fs.unlinkSync(path.join(downloadDir, name))`. -/
def unlink (dir : List Str) (name : Str) : List Str :=
  dir.filter (fun n => n ≠ name)

/-- What one `downloadFile` call (and the reads that follow it inside the same
`try` block) does: it throws, possibly after the destination file was created,
or it resolves with a stored file of the given digest and byte size. -/
inductive FetchOutcome where
  | failed (leavesFile : Bool)
  | ok (hash : Str) (size : Nat)
deriving DecidableEq, Repr

/-! ## `downloadMarsPhotos` -/

/-- The fields of an element of `data.photos` that the loop reads. -/
structure Photo where
  img_src : Str
  sol : Nat
  cameraName : Str
  cameraFullName : Str
  roverName : Str
  earth_date : Str
deriving DecidableEq, Repr

/-- An element of `downloadedFiles` in `downloadMarsPhotos`. The field `hash` is
not stored by the program: it records the digest of the stored file, so that
properties of the kept files can be stated on the manifest. -/
structure MarsFile where
  filename : Str
  rover : Str
  camera : Str
  sol : Nat
  earth_date : Str
  size : Nat
  hash : Str
deriving DecidableEq, Repr

/-- The state the `for` loop of `downloadMarsPhotos` works on. -/
structure MarsState where
  dir : List Str
  existingHashes : List HashRecord
  downloadedFiles : List MarsFile
deriving DecidableEq, Repr

/-- The name proposed for a photo before `getUniqueFilename`:
`path.basename(imageUrl).split('?')[0]`, or the synthesized
`${rover}_sol${photo.sol}_${photo.camera.name}_${downloadedFiles.length + 1}${extension}`
when that is empty. -/
def marsFilename (rover : Str) (photo : Photo) (downloadedCount : Nat) : Str :=
  let imageUrl := photo.img_src
  let filename := stripQuery (basename imageUrl)
  if filename = [] ∨ filename = ['/'] then
    let extension := if extname imageUrl = [] then ".jpg".toList else extname imageUrl
    rover ++ "_sol".toList ++ numToString photo.sol ++ "_".toList ++ photo.cameraName
      ++ "_".toList ++ numToString (downloadedCount + 1) ++ extension
  else filename

/-- One iteration of the `for` loop of `downloadMarsPhotos`, after the `break`
test: resolve the name, fetch, de-duplicate, push. -/
def marsStep (rover : Str) (photo : Photo) (outcome : FetchOutcome) (st : MarsState) :
    MarsState :=
  let filename := getUniqueFilename st.dir (marsFilename rover photo st.downloadedFiles.length)
  match outcome with
  | .failed leavesFile =>
    { st with dir := if leavesFile then writeFile st.dir filename else st.dir }
  | .ok hash size =>
    let written := writeFile st.dir filename
    let res := checkDuplicate hash size st.existingHashes
    if res.1 then
      { st with dir := unlink written filename, existingHashes := res.2 }
    else
      { dir := written
        existingHashes := res.2
        downloadedFiles := st.downloadedFiles ++
          [{ filename := filename, rover := photo.roverName, camera := photo.cameraFullName,
             sol := photo.sol, earth_date := photo.earth_date, size := size, hash := hash }] }

/-- The loop `for (const photo of ...) { if (downloadedFiles.length >= count) break; ... }`. -/
def marsLoop (rover : Str) (count : Nat) : List (Photo × FetchOutcome) → MarsState → MarsState
  | [], st => st
  | (photo, outcome) :: rest, st =>
    if st.downloadedFiles.length ≥ count then st
    else marsLoop rover count rest (marsStep rover photo outcome st)

/-- What `downloadMarsPhotos` returns once the upstream query has answered: the
"no photos found" message, or the completion summary built from the final
directory and `downloadedFiles`. -/
inductive MarsResult where
  | notFound
  | completed (st : MarsState)
deriving DecidableEq, Repr

/-- The part of `downloadMarsPhotos` after the upstream query: `photos` is the
answer, each photo paired with the outcome its fetch will have; `dir0` is the
content of the download directory when the loop starts. -/
def downloadMarsPhotos (rover : Str) (count : Nat) (dir0 : List Str)
    (photos : List (Photo × FetchOutcome)) : MarsResult :=
  if photos.length = 0 then .notFound
  else .completed (marsLoop rover count (photos.take (count * 2))
    { dir := dir0, existingHashes := [], downloadedFiles := [] })

/-- The manifest carried by a result of `downloadMarsPhotos`. -/
def MarsResult.manifest : MarsResult → List MarsFile
  | .notFound => []
  | .completed st => st.downloadedFiles

/-! ## `downloadNASAMedia`, `downloadNASAImage`, `downloadNASAVideo` -/

/-- A JSON value, as `axios` hands it to the program. The fields of an object
are listed in the order in which `for (const key in obj)` visits them. -/
inductive JVal where
  | null
  | bool (b : Bool)
  | num (n : Int)
  | str (s : Str)
  | arr (xs : List JVal)
  | obj (fields : List (Str × JVal))

/-- `s.includes(pat)`. -/
def includes (s pat : Str) : Bool := s.tails.any (fun t => pat.isPrefixOf t)

/-- `s.startsWith(pat)`. -/
def startsWith (s pat : Str) : Bool := pat.isPrefixOf s

/-- `s.toLowerCase()`, on the ASCII letters. -/
def toLowerCase (s : Str) : Str := s.map Char.toLower

/-- The constant `videoExtensions`. -/
def videoExtensions : List Str :=
  [".mp4".toList, ".mov".toList, ".m4v".toList, ".webm".toList, ".avi".toList]

/-- The constant `preferredFormats`. -/
def preferredFormats : List Str :=
  ["~medium.mp4".toList, "~small.mp4".toList, "~mobile.mp4".toList, "~preview.mp4".toList,
   "~orig.mov".toList]

/-- The constant `qualities` of `downloadNASAImage`. -/
def qualities : List Str :=
  ["~orig.jpg".toList, "~large.jpg".toList, "~medium.jpg".toList, "~small.jpg".toList]

/-- The inner test of `searchInObject` on a string value: it contains, once
lower-cased, one of `videoExtensions`. -/
def hasVideoExtension (value : Str) : Bool :=
  videoExtensions.any (fun ext => includes (toLowerCase value) ext)

mutual
/-- The body of the `for (const key in obj)` loop of `searchInObject` for one
value: a string is returned when it matches, an array or object is searched
recursively, anything else is skipped. -/
def searchInValue : JVal → Option Str
  | .str s => if hasVideoExtension s then some s else none
  | .arr xs => searchInValues xs
  | .obj fields => searchInFields fields
  | _ => none
/-- The loop of `searchInObject` over the elements of an array. -/
def searchInValues : List JVal → Option Str
  | [] => none
  | v :: rest =>
    match searchInValue v with
    | some r => some r
    | none => searchInValues rest
/-- The loop of `searchInObject` over the fields of an object. -/
def searchInFields : List (Str × JVal) → Option Str
  | [] => none
  | (_, v) :: rest =>
    match searchInValue v with
    | some r => some r
    | none => searchInFields rest
end

/-- The closure `searchInObject(obj)`, called on a value with
`typeof obj === 'object'`. -/
def searchInObject : JVal → Option Str
  | .arr xs => searchInValues xs
  | .obj fields => searchInFields fields
  | _ => none

/-- `collectionData.find(url => typeof url === 'string' && test(url))`. -/
def findString (test : Str → Bool) : List JVal → Option Str
  | [] => none
  | .str s :: rest => if test s then some s else findString test rest
  | _ :: rest => findString test rest

/-- The loops `for (const format of ...) { videoUrl = collectionData.find(...);
if (videoUrl) break; }`: the first pattern for which `find` succeeds decides. -/
def findFirstPattern (test : Str → Str → Bool) (collectionData : List JVal) :
    List Str → Option Str
  | [] => none
  | pat :: rest =>
    match findString (fun url => test url pat) collectionData with
    | some url => some url
    | none => findFirstPattern test collectionData rest

/-- The choice of `videoUrl` from `collectionData` in `downloadNASAVideo`;
`none` stands for the falsy `videoUrl` of the `No video file found` exit. -/
def selectVideoUrl : JVal → Option Str
  | .arr collectionData =>
    match findFirstPattern (fun url format => includes url format) collectionData
        preferredFormats with
    | some url => some url
    | none =>
      match findFirstPattern (fun url ext => includes (toLowerCase url) ext) collectionData
          videoExtensions with
      | some url => some url
      | none => findString (fun url => startsWith url "http".toList) collectionData
  | collectionData => searchInObject collectionData

/-- The fields of an element of `data.collection.items` that the program
reads: `data[0]?.media_type`, `data[0]?.title`, the `links` array as
`(render, href)` pairs, and `href`. -/
structure MediaItem where
  mediaType : Option Str
  title : Option Str
  links : List (Str × Str)
  href : Option Str
deriving DecidableEq

/-- What the network answers while one item is processed: whether
`axios.head(url)` resolves, the body of `axios.get(collectionUrl)` (`none` when
it rejects), and the outcome of the single `downloadFile` call. -/
structure ItemEnv where
  reachable : Str → Bool
  collection : Option JVal
  fetch : FetchOutcome

/-- An element of `downloadedFiles` in `downloadNASAMedia`. As in `MarsFile`,
`hash` records the digest of the stored file and is not stored by the
program. -/
structure MediaFile where
  filename : Str
  title : Str
  type : Str
  size : Nat
  hash : Str
deriving DecidableEq, Repr

/-- The state shared by the loop of `downloadNASAMedia` and the two per-item
functions. -/
structure MediaState where
  dir : List Str
  existingHashes : List HashRecord
  downloadedFiles : List MediaFile
deriving DecidableEq, Repr

/-- `href.replace(/~(small|medium|large|orig)\.jpg$/, '')`. -/
def stripQualitySuffix (href : Str) : Str :=
  match ["~small.jpg".toList, "~medium.jpg".toList, "~large.jpg".toList,
      "~orig.jpg".toList].find? (fun suf => suf.isSuffixOf href) with
  | some suf => href.take (href.length - suf.length)
  | none => href

/-- The probing loop of `downloadNASAImage`: the first `baseUrl + quality` for
which `axios.head` resolves. -/
def probeQualities (reachable : Str → Bool) (baseUrl : Str) : List Str → Option Str
  | [] => none
  | quality :: rest =>
    if reachable (baseUrl ++ quality) then some (baseUrl ++ quality)
    else probeQualities reachable baseUrl rest

/-- The URL `downloadNASAImage` downloads for an image link `href`. -/
def selectImageUrl (reachable : Str → Bool) (href : Str) : Str :=
  match probeQualities reachable (stripQualitySuffix href) qualities with
  | some testUrl => testUrl
  | none => href

/-- `item.data[0]?.title || 'Unknown'`. -/
def titleOf (item : MediaItem) : Str :=
  match item.title with
  | some t => if t = [] then "Unknown".toList else t
  | none => "Unknown".toList

/-- The name proposed for an image before `getUniqueFilename`. -/
def imageFilename (imageUrl : Str) (downloadedCount : Nat) : Str :=
  let filename := stripQuery (basename imageUrl)
  if filename = [] ∨ filename = ['/'] ∨ ¬ ('.' ∈ filename) then
    "nasa_image_".toList ++ numToString (downloadedCount + 1) ++ ".jpg".toList
  else filename

/-- The name proposed for a video before `getUniqueFilename`. -/
def videoFilename (videoUrl : Str) (downloadedCount : Nat) : Str :=
  let filename := stripQuery (basename videoUrl)
  if filename = [] ∨ filename = ['/'] ∨ ¬ ('.' ∈ filename) then
    let urlExtension := if extname videoUrl = [] then ".mp4".toList else extname videoUrl
    "nasa_video_".toList ++ numToString (downloadedCount + 1) ++ urlExtension
  else filename

/-- `downloadNASAImage(item, downloadDir, downloadedFiles, existingHashes)`. -/
def downloadNASAImage (item : MediaItem) (env : ItemEnv) (st : MediaState) : MediaState :=
  match item.links.find? (fun link => link.1 = "image".toList) with
  | none => st
  | some imageLink =>
    let imageUrl := selectImageUrl env.reachable imageLink.2
    let filename := getUniqueFilename st.dir (imageFilename imageUrl st.downloadedFiles.length)
    match env.fetch with
    | .failed leavesFile =>
      { st with dir := if leavesFile then writeFile st.dir filename else st.dir }
    | .ok hash size =>
      let written := writeFile st.dir filename
      let res := checkDuplicate hash size st.existingHashes
      if res.1 then
        { st with dir := unlink written filename, existingHashes := res.2 }
      else
        { dir := written
          existingHashes := res.2
          downloadedFiles := st.downloadedFiles ++
            [{ filename := filename, title := titleOf item, type := "image".toList,
               size := size, hash := hash }] }

/-- `downloadNASAVideo(item, downloadDir, downloadedFiles)`: it receives no
`existingHashes` and never calls `checkDuplicate`; a stored file of fewer than
1000 bytes is deleted. -/
def downloadNASAVideo (item : MediaItem) (env : ItemEnv) (st : MediaState) : MediaState :=
  match item.href with
  | none => st
  | some collectionUrl =>
    if collectionUrl = [] ∨ ¬ includes collectionUrl "collection.json".toList then st
    else
      match env.collection with
      | none => st
      | some collectionData =>
        match selectVideoUrl collectionData with
        | none => st
        | some videoUrl =>
          let filename :=
            getUniqueFilename st.dir (videoFilename videoUrl st.downloadedFiles.length)
          match env.fetch with
          | .failed leavesFile =>
            { st with dir := if leavesFile then writeFile st.dir filename else st.dir }
          | .ok hash size =>
            let written := writeFile st.dir filename
            if size < 1000 then { st with dir := unlink written filename }
            else
              { st with
                dir := written
                downloadedFiles := st.downloadedFiles ++
                  [{ filename := filename, title := titleOf item, type := "video".toList,
                     size := size, hash := hash }] }

/-- The dispatch inside the loop of `downloadNASAMedia`. -/
def mediaStep (media_type : Str) (item : MediaItem) (env : ItemEnv) (st : MediaState) :
    MediaState :=
  if item.mediaType = some "image".toList then downloadNASAImage item env st
  else if item.mediaType = some "video".toList ∧
      (media_type = "video".toList ∨ media_type = "both".toList) then
    downloadNASAVideo item env st
  else st

/-- The loop `for (const item of ...) { if (downloadedFiles.length >= count) break; ... }`
of `downloadNASAMedia`. -/
def mediaLoop (media_type : Str) (count : Nat) :
    List (MediaItem × ItemEnv) → MediaState → MediaState
  | [], st => st
  | (item, env) :: rest, st =>
    if st.downloadedFiles.length ≥ count then st
    else mediaLoop media_type count rest (mediaStep media_type item env st)

/-! ## The shuffle of `downloadNASAMedia` -/

/-- The destructuring swap `[a[i], a[j]] = [a[j], a[i]]`, on indices inside the
array. -/
def swap {α : Type} (xs : List α) (i j : Nat) : List α :=
  match xs[i]?, xs[j]? with
  | some x, some y => (xs.set i y).set j x
  | _, _ => xs

/-- The loop `for (let i = k; i > 0; i--) { const j = draw(i); swap(i, j) }`,
where `draw i` is the value `Math.floor(Math.random() * (i + 1))` drawn at
index `i`. -/
def shuffleLoop {α : Type} (draw : Nat → Nat) : Nat → List α → List α
  | 0, xs => xs
  | i + 1, xs => shuffleLoop draw i (swap xs (i + 1) (draw (i + 1)))

/-- The Fisher-Yates pass over a copy of `items`, starting at
`i = items.length - 1`. -/
def shuffle {α : Type} (draw : Nat → Nat) (items : List α) : List α :=
  shuffleLoop draw (items.length - 1) items

/-- A sequence of draws for a list of `n` items: component `k` is the value
`j` drawn at loop index `i = k + 1`, with `0 <= j <= i`; the indices run over
`i = 1, ..., n - 1`. -/
abbrev DrawSeq (n : Nat) : Type := (k : Fin (n - 1)) → Fin (k.val + 2)

/-- The draw of a sequence at loop index `i`. -/
def DrawSeq.draw {n : Nat} (s : DrawSeq n) (i : Nat) : Nat :=
  if h : 1 ≤ i ∧ i < n then (s ⟨i - 1, by omega⟩).val else 0

/-- What `downloadNASAMedia` returns once the search has answered. -/
inductive MediaResult where
  | notFound
  | completed (st : MediaState)
deriving DecidableEq, Repr

/-- The part of `downloadNASAMedia` after the search request: `items` is
`data.collection.items`, each item paired with what the network answers while
it is processed; `draw` gives the random draws of the shuffle. -/
def downloadNASAMedia (media_type order : Str) (count : Nat) (draw : Nat → Nat)
    (dir0 : List Str) (items : List (MediaItem × ItemEnv)) : MediaResult :=
  if items.length = 0 then .notFound
  else
    let itemsToProcess := if order = "random".toList then shuffle draw items else items
    .completed (mediaLoop media_type count (itemsToProcess.take (count * 2))
      { dir := dir0, existingHashes := [], downloadedFiles := [] })

/-- The manifest carried by a result of `downloadNASAMedia`. -/
def MediaResult.manifest : MediaResult → List MediaFile
  | .notFound => []
  | .completed st => st.downloadedFiles


/-! ## Predicates used to state the properties -/

/-- Two records are apart: different digests and sizes at least 1024 bytes
apart, which is what `checkDuplicate` requires of a record it keeps against
every earlier one. -/
def Apart (a b : HashRecord) : Prop :=
  a.hash ≠ b.hash ∧ 1024 ≤ absDiff a.size b.size

instance (a b : HashRecord) : Decidable (Apart a b) := by
  unfold Apart
  infer_instance

/-- The record `{ hash, size }` of a stored Mars photo. -/
def MarsFile.record (f : MarsFile) : HashRecord := { hash := f.hash, size := f.size }

/-- The record `{ hash, size }` of a stored media file. -/
def MediaFile.record (f : MediaFile) : HashRecord := { hash := f.hash, size := f.size }

/-- The manifest entry is an image entry (`type: 'image'`). -/
def MediaFile.isImage (f : MediaFile) : Bool := f.type = "image".toList

/-- What the loop of `downloadMarsPhotos` keeps true: manifest names are names
of existing files and are pairwise different; `existingHashes` holds the
records of the manifest's files, which are pairwise apart. -/
structure MarsInv (st : MarsState) : Prop where
  names_mem : ∀ f ∈ st.downloadedFiles, f.filename ∈ st.dir
  names_nodup : (st.downloadedFiles.map (fun f => f.filename)).Nodup
  hashes_eq : st.existingHashes = st.downloadedFiles.map MarsFile.record
  hashes_apart : st.existingHashes.Pairwise Apart

/-- What the loop of `downloadNASAMedia` keeps true: manifest names are names
of existing files and are pairwise different; `existingHashes` holds the
records of the manifest's image entries, which are pairwise apart. -/
structure MediaInv (st : MediaState) : Prop where
  names_mem : ∀ f ∈ st.downloadedFiles, f.filename ∈ st.dir
  names_nodup : (st.downloadedFiles.map (fun f => f.filename)).Nodup
  hashes_eq : st.existingHashes =
    (st.downloadedFiles.filter MediaFile.isImage).map MediaFile.record
  hashes_apart : st.existingHashes.Pairwise Apart

/-- The data of a manifest entry of `downloadMarsPhotos` apart from its file
name: the echoed photo fields, the digest and the size of the stored file. -/
def MarsFile.echo (f : MarsFile) : Str × Str × Nat × Str × Str × Nat :=
  (f.rover, f.camera, f.sol, f.earth_date, f.hash, f.size)

/-- The same data for a candidate whose fetch stored a file of digest `hash`
and `size` bytes. -/
def photoEcho (c : Photo × Str × Nat) : Str × Str × Nat × Str × Str × Nat :=
  (c.1.roverName, c.1.cameraFullName, c.1.sol, c.1.earth_date, c.2.1, c.2.2)

/-- The record `{ hash, size }` of the file a candidate's fetch stored. -/
def candidateRecord (c : Photo × Str × Nat) : HashRecord := { hash := c.2.1, size := c.2.2 }

/-- A candidate whose fetch succeeds with the given digest and size. -/
def succeeding (c : Photo × Str × Nat) : Photo × FetchOutcome := (c.1, .ok c.2.1 c.2.2)

/-- Written from the words of the specification, not from the loop: the
candidates, in input order, whose fetch succeeded and which `checkDuplicate`
did not judge duplicate against `records`, the records of the files kept
before them. -/
def keptCandidates : List (Photo × FetchOutcome) → List HashRecord → List (Photo × Str × Nat)
  | [], _ => []
  | (_, .failed _) :: rest, records => keptCandidates rest records
  | (photo, .ok hash size) :: rest, records =>
    if (checkDuplicate hash size records).1 then keptCandidates rest records
    else (photo, hash, size) ::
      keptCandidates rest (records ++ [{ hash := hash, size := size }])

/-- Two `collection.json` videos with the same content, requested with
`media_type = 'video'`. -/
def duplicateVideoBatch : List (MediaItem × ItemEnv) :=
  [({ mediaType := some "video".toList, title := some "Launch".toList, links := [],
      href := some "https://images-assets.nasa.gov/video/a/collection.json".toList },
    { reachable := fun _ => false,
      collection := some (.arr [.str "https://images-assets.nasa.gov/video/a/a~orig.mp4".toList]),
      fetch := .ok "d41d8cd9".toList 5000 }),
   ({ mediaType := some "video".toList, title := some "Launch again".toList, links := [],
      href := some "https://images-assets.nasa.gov/video/b/collection.json".toList },
    { reachable := fun _ => false,
      collection := some (.arr [.str "https://images-assets.nasa.gov/video/b/b~orig.mp4".toList]),
      fetch := .ok "d41d8cd9".toList 5000 })]

/-- A photo of the Mars API with the given image URL. -/
def samplePhoto (img_src : Str) : Photo :=
  { img_src := img_src, sol := 1000, cameraName := "FHAZ".toList,
    cameraFullName := "Front Hazard Avoidance Camera".toList,
    roverName := "Curiosity".toList, earth_date := "2015-05-30".toList }

/-- Four photos whose fetches all succeed; the second and the third file have
the same digest and sizes 500 bytes apart, every other pair differs in digest
and by at least 1024 bytes in size. -/
def duplicatePairBatch : List (Photo × Str × Nat) :=
  [(samplePhoto "http://mars.nasa.gov/p/a.jpg".toList, "h0".toList, 10000),
   (samplePhoto "http://mars.nasa.gov/p/b.jpg".toList, "h1".toList, 20000),
   (samplePhoto "http://mars.nasa.gov/p/c.jpg".toList, "h1".toList, 20500),
   (samplePhoto "http://mars.nasa.gov/p/d.jpg".toList, "h3".toList, 40000)]

/-- Five photos whose fetches all succeed with pairwise different digests and
sizes at least 1024 bytes apart. -/
def fivePhotoBatch : List (Photo × Str × Nat) :=
  [(samplePhoto "http://mars.nasa.gov/p/a.jpg".toList, "h0".toList, 10000),
   (samplePhoto "http://mars.nasa.gov/p/b.jpg".toList, "h1".toList, 20000),
   (samplePhoto "http://mars.nasa.gov/p/c.jpg".toList, "h2".toList, 30000),
   (samplePhoto "http://mars.nasa.gov/p/d.jpg".toList, "h3".toList, 40000),
   (samplePhoto "http://mars.nasa.gov/p/e.jpg".toList, "h4".toList, 50000)]

/-! ## The stall watchdog of `downloadFile` -/

/-- The variables the `setInterval` callback of `startPolling` reads and
writes. -/
structure Watchdog where
  lastProgressBytes : Nat
  noProgressCount : Nat
  pollingInterval : Nat
deriving DecidableEq, Repr

/-- The constant `maxPollingInterval`. -/
def maxPollingInterval : Nat := 60000

/-- The variables as `downloadFile` initialises them:
`lastProgressBytes = 0`, `noProgressCount = 0`, `pollingInterval = 10000`. -/
def Watchdog.init : Watchdog :=
  { lastProgressBytes := 0, noProgressCount := 0, pollingInterval := 10000 }

/-- One run of the timer callback; `currentBytes` is the value of
`downloadedBytes` when it runs. -/
def Watchdog.tick (w : Watchdog) (currentBytes : Nat) : Watchdog :=
  if currentBytes = w.lastProgressBytes then
    { lastProgressBytes := currentBytes
      noProgressCount := w.noProgressCount + 1
      pollingInterval :=
        if w.pollingInterval < maxPollingInterval then w.pollingInterval + 5000
        else w.pollingInterval }
  else if w.noProgressCount > 0 then
    { lastProgressBytes := currentBytes, noProgressCount := 0, pollingInterval := 10000 }
  else { w with lastProgressBytes := currentBytes }

/-- The variables after a sequence of ticks, given the byte count each tick
observed. -/
def Watchdog.run (observed : List Nat) : Watchdog :=
  observed.foldl Watchdog.tick Watchdog.init

/-- The delay the timer waits before its next tick, after the ticks that
observed `observed`. `startPolling` calls `setInterval(callback, pollingInterval)`
once, before any tick: the argument is evaluated at that call, so the period of
the timer is the initial value of the variable, whatever the callback assigns
to it later. -/
def timerDelay (_observed : List Nat) : Nat :=
  Watchdog.init.pollingInterval

/-! ## The progress handler of `downloadFile` -/

/-- The variables the `data` handler reads and writes. -/
structure ProgressState where
  downloadedBytes : Nat
  lastProgressTime : Int
deriving DecidableEq, Repr

/-- `Math.round((downloadedBytes / totalBytes) * 100)` for `totalBytes > 0`,
`Math.round` rounding halves up. The quotient is taken exactly, the program
takes it in floating point. -/
def progressPercent (downloadedBytes totalBytes : Nat) : Nat :=
  (200 * downloadedBytes + totalBytes) / (2 * totalBytes)

/-- `createProgressBar(progress, width)`:
`filled = Math.round((progress / 100) * width)`, `empty = width - filled`, and
the bar `'█'.repeat(filled) + '░'.repeat(empty)`. `String.prototype.repeat`
raises a `RangeError` on a negative count: `none` stands for that. -/
def createProgressBar (progress width : Nat) : Option Str :=
  let filled := (2 * progress * width + 100) / 200
  let empty : Int := (width : Int) - (filled : Int)
  if empty < 0 then none
  else some (List.replicate filled '█' ++ List.replicate empty.toNat '░')

/-- What one call of the `data` handler does besides updating its variables:
nothing (the condition of the `if` is false), a progress event (the progress
line is written with this bar and `progressCallback` is called), or a
`RangeError` raised by `createProgressBar`, which leaves the handler before the
line is written, before `lastProgressTime = now` and before the callback. -/
inductive DataOutcome where
  | silent
  | event (progressBar : Str)
  | rangeError
deriving DecidableEq, Repr

/-- The call emitted a progress event. -/
def DataOutcome.emitted : DataOutcome → Bool
  | .event _ => true
  | _ => false

/-- What the progress line got from `this.createProgressBar(progress)`: `none`
when the call did not reach it, `some none` when it raised, `some (some bar)`
otherwise. -/
def DataOutcome.bar : DataOutcome → Option (Option Str)
  | .silent => none
  | .event progressBar => some (some progressBar)
  | .rangeError => some none

/-- The `data` handler for one chunk of `chunkLength` bytes arriving when
`Date.now()` is `now`: the variables afterwards and what the call did.
`totalBytes` is `parseInt(content-length || '0')`. Inside the `if`,
`createProgressBar` is called first; `lastProgressTime` is assigned only when
it returned. -/
def onData (totalBytes : Nat) (st : ProgressState) (chunkLength : Nat) (now : Int) :
    ProgressState × DataOutcome :=
  let downloadedBytes := st.downloadedBytes + chunkLength
  if totalBytes > 0 ∧ (now - st.lastProgressTime > 500 ∨ downloadedBytes = totalBytes) then
    match createProgressBar (progressPercent downloadedBytes totalBytes) 20 with
    | some progressBar =>
      ({ downloadedBytes := downloadedBytes, lastProgressTime := now }, .event progressBar)
    | none =>
      ({ downloadedBytes := downloadedBytes, lastProgressTime := st.lastProgressTime },
        .rangeError)
  else
    ({ downloadedBytes := downloadedBytes, lastProgressTime := st.lastProgressTime }, .silent)

/-- The handler run over the chunks of a transfer, each given as
`(chunk.length, Date.now())`: what each call did. A `RangeError` leaves the
listener uncaught, so the run ends with the call that raised. -/
def dataOutcomes (totalBytes : Nat) : ProgressState → List (Nat × Int) → List DataOutcome
  | _, [] => []
  | st, (chunkLength, now) :: rest =>
    match (onData totalBytes st chunkLength now).2 with
    | .rangeError => [.rangeError]
    | outcome => outcome :: dataOutcomes totalBytes (onData totalBytes st chunkLength now).1 rest

/-- For every handled chunk of a transfer, whether it emitted a progress
event. -/
def progressEvents (totalBytes : Nat) (st : ProgressState) (arrivals : List (Nat × Int)) :
    List Bool :=
  (dataOutcomes totalBytes st arrivals).map DataOutcome.emitted

/-- For every handled chunk of a transfer, what the progress line got from
`this.createProgressBar(progress)` (width 20): `none` when the chunk emitted no
event, `some none` when the call raised, `some (some bar)` otherwise. -/
def progressBars (totalBytes : Nat) (st : ProgressState) (arrivals : List (Nat × Int)) :
    List (Option (Option Str)) :=
  (dataOutcomes totalBytes st arrivals).map DataOutcome.bar

/-- The time of the latest emitted event among chunks with the given arrival
times and emission flags, `start` when none was emitted. -/
def lastEventTime (start : Int) : List (Int × Bool) → Int
  | [] => start
  | (now, emitted) :: rest => lastEventTime (if emitted then now else start) rest

/-! ## Names derived from URLs -/

/-- `path.basename(url)` followed by `.split('?')[0]`, as `downloadAPOD`,
`downloadMarsPhotos`, `downloadNASAImage` and `downloadNASAVideo` derive a file
name from a URL. -/
def urlFilename (url : Str) : Str := stripQuery (basename url)

/-! ## `downloadAPOD` -/

/-- The fields of an element of the APOD answer that the loop reads. -/
structure ApodItem where
  hdurl : Option Str
  url : Option Str
  title : Str
  date : Option Str
deriving DecidableEq, Repr

/-- An element of `downloadedFiles` in `downloadAPOD`. -/
structure ApodFile where
  filename : Str
  title : Str
  date : Option Str
  size : Nat
deriving DecidableEq, Repr

/-- The state the `for` loop of `downloadAPOD` works on. -/
structure ApodState where
  dir : List Str
  downloadedFiles : List ApodFile
deriving DecidableEq, Repr

/-- A string operand of `||`: an absent or empty string is falsy. -/
def truthyStr : Option Str → Option Str
  | some s => if s = [] then none else some s
  | none => none

/-- `item.hdurl || item.url`, when truthy. -/
def apodImageUrl (item : ApodItem) : Option Str :=
  match truthyStr item.hdurl with
  | some u => some u
  | none => truthyStr item.url

/-- The name proposed for an APOD image before `getUniqueFilename`; `today` is
`new Date().toISOString().split('T')[0]`. -/
def apodFilename (today : Str) (item : ApodItem) (imageUrl : Str) : Str :=
  let filename := stripQuery (basename imageUrl)
  if filename = [] ∨ filename = ['/'] then
    let extension := if extname imageUrl = [] then ".jpg".toList else extname imageUrl
    "apod_".toList ++ (match truthyStr item.date with | some d => d | none => today)
      ++ extension
  else filename

/-- One iteration of the `for` loop of `downloadAPOD`. -/
def apodStep (today : Str) (item : ApodItem) (outcome : FetchOutcome) (st : ApodState) :
    ApodState :=
  match apodImageUrl item with
  | none => st
  | some imageUrl =>
    let filename := getUniqueFilename st.dir (apodFilename today item imageUrl)
    match outcome with
    | .failed leavesFile =>
      { st with dir := if leavesFile then writeFile st.dir filename else st.dir }
    | .ok _ size =>
      { dir := writeFile st.dir filename
        downloadedFiles := st.downloadedFiles ++
          [{ filename := filename, title := item.title, date := item.date, size := size }] }

/-- The loop `for (let i = 0; i < images.length; i++)` of `downloadAPOD`. -/
def apodLoop (today : Str) : List (ApodItem × FetchOutcome) → ApodState → ApodState
  | [], st => st
  | (item, outcome) :: rest, st => apodLoop today rest (apodStep today item outcome st)

/-- How a call of `downloadAPOD` ends once the upstream query has answered: with
the completion summary (order explanation, directory, downloaded files), or by
raising a `ReferenceError` for an identifier that is bound nowhere. -/
inductive ApodResult where
  | completed (apodOrderExplanation : Str) (st : ApodState)
  | referenceError (identifier : Str)
deriving DecidableEq, Repr

/-- The part of `downloadAPOD` after the upstream query. `order` has only been
used to build the query URL. After the loop, `count === 1` gives the
explanation for today's picture (`todayJP` is
`new Date().toLocaleDateString('ja-JP')`); otherwise the function evaluates
`switch (apod_order)`, and `apod_order` is declared neither in the function, nor
in the module, nor as a global. -/
def downloadAPOD (count : Nat) (_order : Str) (today todayJP : Str) (dir0 : List Str)
    (images : List (ApodItem × FetchOutcome)) : ApodResult :=
  let st := apodLoop today images { dir := dir0, downloadedFiles := [] }
  if count = 1 then .completed ("📅 今日のAPOD: ".toList ++ todayJP) st
  else .referenceError "apod_order".toList

/-! ## The sol queried by `downloadMarsPhotos` -/

/-- `this.roverLandingDates[rover]`, as `getTime()` milliseconds. -/
def roverLandingDates (rover : Str) : Option Int :=
  if rover = "curiosity".toList then some 1344230277000
  else if rover = "perseverance".toList then some 1613681700000
  else if rover = "opportunity".toList then some 1075007100000
  else if rover = "spirit".toList then some 1073190900000
  else none

/-- `earthDateToSol(earthDate, rover)`; `none` stands for `null`. `parseDate` is
`new Date(earthDate).getTime()`, `none` for an invalid date. The quotient
`elapsedMilliseconds / 1000 / 88775.244` is taken exactly, the program takes it
in floating point. -/
def earthDateToSol (parseDate : Str → Option Int) (earthDate rover : Str) : Option Nat :=
  match roverLandingDates (toLowerCase rover) with
  | none => none
  | some landingDate =>
    match parseDate earthDate with
    | none => none
    | some targetDate =>
      let elapsedMilliseconds := targetDate - landingDate
      if elapsedMilliseconds < 0 then none
      else some (elapsedMilliseconds / 88775244).toNat

/-- How the first block of `downloadMarsPhotos` ends: with a value for
`usedSol` (`none` when it stays undefined), or with the invalid-date message. -/
inductive SolChoice where
  | usedSol (sol : Option Nat)
  | dateError
deriving DecidableEq, Repr

/-- A numeric operand of `!`: an absent number and `0` are falsy. -/
def truthyNum : Option Nat → Bool
  | some n => n ≠ 0
  | none => false

/-- The block `let usedSol = sol; if (earth_date && !sol) { ... }` of
`downloadMarsPhotos`. -/
def chooseSol (parseDate : Str → Option Int) (rover : Str) (sol : Option Nat)
    (earth_date : Option Str) : SolChoice :=
  match truthyStr earth_date with
  | some d =>
    if truthyNum sol then .usedSol sol
    else
      match earthDateToSol parseDate d rover with
      | some s => .usedSol (some s)
      | none => .dateError
  | none => .usedSol sol

/-- A `Date` parser that knows the one date `2015-05-30` (midnight UTC). -/
def parseSampleDate (s : Str) : Option Int :=
  if s = "2015-05-30".toList then some 1432944000000 else none

/-! ## Strings of a JSON value -/

mutual
/-- Written from the words of the specification: the string values of a JSON
value in depth-first order, the elements of a list in index order and the
fields of a map in key order. -/
def stringsOf : JVal → List Str
  | .str s => [s]
  | .arr xs => stringsOfValues xs
  | .obj fields => stringsOfFields fields
  | _ => []
/-- The strings of the elements of a list, in order. -/
def stringsOfValues : List JVal → List Str
  | [] => []
  | v :: rest => stringsOf v ++ stringsOfValues rest
/-- The strings of the fields of a map, in order. -/
def stringsOfFields : List (Str × JVal) → List Str
  | [] => []
  | (_, v) :: rest => stringsOf v ++ stringsOfFields rest
end

/-- The string elements of a `collection.json` array, in order. -/
def stringElements : List JVal → List Str
  | [] => []
  | .str s :: rest => s :: stringElements rest
  | _ :: rest => stringElements rest

/-- A listing whose first entry is a caption file named after the medium
rendition and whose second entry is the small rendition. -/
def captionFirstListing : List JVal :=
  [.str "https://images-assets.nasa.gov/video/a/a~medium.mp4.srt".toList,
   .str "https://images-assets.nasa.gov/video/a/a~small.mp4".toList]

/-- An APOD answer of two pictures whose downloads succeed. -/
def apodTwoDays : List (ApodItem × FetchOutcome) :=
  [({ hdurl := some "https://apod.nasa.gov/apod/image/2406/m31_hd.jpg".toList, url := none,
      title := "M31".toList, date := some "2024-06-01".toList },
    .ok "c4ca4238".toList 250000),
   ({ hdurl := none, url := some "https://apod.nasa.gov/apod/image/2406/ngc1300.jpg".toList,
      title := "NGC 1300".toList, date := some "2024-06-02".toList },
    .ok "c81e728d".toList 180000)]

/-! ## A running list fed by `checkDuplicate` only -/

/-- The list `existingHashes` after a sequence of `checkDuplicate` calls that
starts from `start`; each call is given by the digest and the size of its
file. -/
def afterChecks (start : List HashRecord) (files : List (Str × Nat)) : List HashRecord :=
  files.foldl (fun existingHashes f => (checkDuplicate f.1 f.2 existingHashes).2) start

theorem digitChar_val (k : Nat) (hk : k < 10) : (Nat.digitChar k).toNat - 48 = k := by
  interval_cases k <;> rfl

theorem toDigitsCore_value (fuel : Nat) : ∀ (n : Nat) (ds : List Char), n < fuel →
    List.foldl (fun acc c => acc * 10 + (c.toNat - 48)) 0 (Nat.toDigitsCore 10 fuel n ds) =
      List.foldl (fun acc c => acc * 10 + (c.toNat - 48)) n ds := by
  induction fuel with
  | zero => intro n ds h; omega
  | succ fuel ih =>
    intro n ds h
    unfold Nat.toDigitsCore
    by_cases h0 : n / 10 = 0
    · simp only [h0, if_true, List.foldl_cons]
      rw [digitChar_val _ (Nat.mod_lt _ (by norm_num))]
      congr 1
      omega
    · simp only [h0, if_false]
      rw [ih (n / 10) _ (by omega), List.foldl_cons, digitChar_val _ (Nat.mod_lt _ (by norm_num))]
      congr 1
      omega

theorem toDigits_injective : Function.Injective (Nat.toDigits 10) := by
  intro a b h
  have ha := toDigitsCore_value (a + 1) a [] (by omega)
  have hb := toDigitsCore_value (b + 1) b [] (by omega)
  unfold Nat.toDigits at h
  rw [h] at ha
  simpa using ha.symm.trans hb

theorem pigeon (f : Nat → List Char) (hf : Function.Injective f) (dir : List (List Char)) (c : Nat)
    (h : ∀ k, 1 ≤ k → k < c → f k ∈ dir) : c ≤ dir.length + 1 := by
  have hnd : ((List.range' 1 (c - 1)).map f).Nodup :=
    List.Nodup.map hf (List.nodup_range' 1 (c - 1))
  have hsub : (List.range' 1 (c - 1)).map f ⊆ dir := by
    intro x hx
    rcases List.mem_map.1 hx with ⟨k, hk, rfl⟩
    rw [List.mem_range'_1] at hk
    exact h k hk.1 (by omega)
  have := (List.subperm_of_subset hnd hsub).length_le
  simp at this
  omega

theorem numToString_injective : Function.Injective numToString := toDigits_injective

theorem suffixedName_injective (orig : Str) : Function.Injective (suffixedName orig) := by
  intro a b h
  unfold suffixedName at h
  exact numToString_injective (List.append_cancel_left (List.append_cancel_right h))

theorem loop_from (dir : List Str) (orig : Str) : ∀ fuel c, 1 ≤ c →
    (∀ k, 1 ≤ k → k < c → suffixedName orig k ∈ dir) → dir.length + 2 ≤ fuel + c →
    ∃ k, c ≤ k ∧
      getUniqueFilenameLoop dir orig fuel (suffixedName orig c) (c + 1) =
        some (suffixedName orig k) ∧
      suffixedName orig k ∉ dir ∧ ∀ j, c ≤ j → j < k → suffixedName orig j ∈ dir := by
  intro fuel
  induction fuel with
  | zero =>
    intro c _ hall hlen
    have := pigeon (suffixedName orig) (suffixedName_injective orig) dir c hall
    omega
  | succ fuel ih =>
    intro c hc hall hlen
    by_cases hmem : suffixedName orig c ∈ dir
    · have hall2 : ∀ k, 1 ≤ k → k < c + 1 → suffixedName orig k ∈ dir := by
        intro k hk1 hk2
        rcases Nat.lt_succ_iff_lt_or_eq.1 hk2 with h | h
        · exact hall k hk1 h
        · exact h ▸ hmem
      obtain ⟨k, hk, heq, hnot, hmin⟩ := ih (c + 1) (by omega) hall2 (by omega)
      refine ⟨k, by omega, ?_, hnot, ?_⟩
      · rw [getUniqueFilenameLoop, if_pos hmem]; exact heq
      · intro j hj1 hj2
        rcases Nat.eq_or_lt_of_le hj1 with h | h
        · exact h ▸ hmem
        · exact hmin j h hj2
    · refine ⟨c, le_refl c, ?_, hmem, fun j h1 h2 => absurd h2 (by omega)⟩
      rw [getUniqueFilenameLoop, if_neg hmem]

theorem getUniqueFilenameLoop_total (dir : List Str) (orig : Str) (fuel : Nat)
    (hfuel : dir.length + 2 ≤ fuel) :
    (orig ∉ dir ∧ getUniqueFilenameLoop dir orig fuel orig 1 = some orig) ∨
    (orig ∈ dir ∧ ∃ k, 1 ≤ k ∧
      getUniqueFilenameLoop dir orig fuel orig 1 = some (suffixedName orig k) ∧
      suffixedName orig k ∉ dir ∧ ∀ j, 1 ≤ j → j < k → suffixedName orig j ∈ dir) := by
  obtain ⟨f, rfl⟩ : ∃ f, fuel = f + 1 := ⟨fuel - 1, by omega⟩
  by_cases hmem : orig ∈ dir
  · right
    obtain ⟨k, hk, heq, hnot, hmin⟩ :=
      loop_from dir orig f 1 (le_refl 1) (fun k h1 h2 => absurd h2 (by omega)) (by omega)
    refine ⟨hmem, k, hk, ?_, hnot, hmin⟩
    rw [getUniqueFilenameLoop, if_pos hmem]; exact heq
  · left
    refine ⟨hmem, ?_⟩
    rw [getUniqueFilenameLoop, if_neg hmem]

theorem getUniqueFilename_not_mem (dir : List Str) (orig : Str) :
    getUniqueFilename dir orig ∉ dir := by
  unfold getUniqueFilename
  rcases getUniqueFilenameLoop_total dir orig (dir.length + 2) (le_refl _) with
    ⟨h, heq⟩ | ⟨_, k, _, heq, hnot, _⟩
  · rw [heq]; exact h
  · rw [heq]; exact hnot

theorem basename_of_no_slash (p : Str) (h : '/' ∉ p) : basename p = p := by
  unfold basename
  have h1 : p.reverse.dropWhile (· == '/') = p.reverse := by
    cases hp : p.reverse with
    | nil => rfl
    | cons a t =>
      rw [List.dropWhile_cons_of_neg]
      have : a ∈ p := by
        rw [← List.mem_reverse, hp]; exact List.mem_cons_self a t
      simp only [beq_iff_eq]
      rintro rfl
      exact h this
  rw [h1, List.takeWhile_eq_self_iff.2, List.reverse_reverse]
  intro x hx
  simp only [bne_iff_ne, ne_eq]
  rintro rfl
  exact h (List.mem_reverse.1 hx)

theorem extname_of_no_slash (p : Str) (h : '/' ∉ p) :
    basenameSuffix p (extname p) ++ extname p = p ∧
      (extname p = [] ∨ ∃ rest, extname p = '.' :: rest ∧ '.' ∉ rest) := by
  have hb := basename_of_no_slash p h
  have hsplit := List.takeWhile_append_dropWhile (fun c => c != '.') p.reverse
  unfold extname
  simp only [hb]
  cases hd : p.reverse.dropWhile (fun c => c != '.') with
  | nil => simp [basenameSuffix, hb]
  | cons d before =>
    simp only
    by_cases h1 : before = []
    · simp [h1, basenameSuffix, hb]
    · by_cases h2 : p = ['.', '.']
      · simp [h1, h2, basenameSuffix, basename]
      · simp only [h1, h2, if_false]
        have hdot : d = '.' := by
          have := List.head_dropWhile_not (fun c => c != '.') p.reverse
            (by rw [hd]; simp)
          simp only [hd, List.head_cons] at this
          simpa using this
        subst hdot
        have hp : p = before.reverse ++
            '.' :: (p.reverse.takeWhile (fun c => c != '.')).reverse := by
          have := congrArg List.reverse hsplit
          rw [hd] at this
          simp only [List.reverse_append, List.reverse_cons, List.reverse_reverse,
            List.append_assoc, List.singleton_append] at this
          exact this.symm
        set tw := (p.reverse.takeWhile (fun c => c != '.')).reverse with htw
        have hbne : before.reverse ≠ [] := by simpa using h1
        refine ⟨?_, Or.inr ⟨tw, rfl, ?_⟩⟩
        · have hlen : p.length = before.reverse.length + ('.' :: tw).length := by
            conv_lhs => rw [hp]
            simp
          have hne : ('.' :: tw) ≠ p := by
            intro he
            have := congrArg List.length he
            have : before.reverse.length = 0 := by omega
            exact hbne (List.length_eq_zero.1 this)
          have hsuf : ('.' :: tw) <:+ p := ⟨before.reverse, hp.symm⟩
          unfold basenameSuffix
          rw [if_neg (not_or.2 ⟨by simp, by omega⟩), if_neg hne]
          simp only [hb]
          rw [if_pos ⟨hsuf, fun he => hne he.symm⟩]
          have : p.length - ('.' :: tw).length = before.reverse.length := by omega
          rw [this]
          conv_lhs => rw [hp]
          rw [List.take_left', ← hp]
          rfl
        · intro hmem
          rw [htw, List.mem_reverse] at hmem
          have := List.mem_takeWhile_imp hmem
          simp at this

/-- C7: `getUniqueFilename` terminates (any bound above `dir.length + 1` on the
number of loop tests gives the same result); the result is absent from the
directory; it is the candidate itself when the candidate is absent; otherwise
it is `stem + '_' + k + ext` for the least `k >= 1` whose name is absent, where
`ext = path.extname(candidate)` and `stem = path.basename(candidate, ext)`. For
a candidate that is a file name (no `/`), `stem + ext` is the candidate and
`ext`, when not empty, starts at the candidate's last dot. -/
theorem getUniqueFilename_spec (dir : List Str) (originalFilename : Str) :
    (∀ fuel, dir.length + 2 ≤ fuel →
      getUniqueFilenameLoop dir originalFilename fuel originalFilename 1 =
        some (getUniqueFilename dir originalFilename)) ∧
    getUniqueFilename dir originalFilename ∉ dir ∧
    (originalFilename ∉ dir → getUniqueFilename dir originalFilename = originalFilename) ∧
    (originalFilename ∈ dir → ∃ k, 1 ≤ k ∧
      getUniqueFilename dir originalFilename =
        basenameSuffix originalFilename (extname originalFilename) ++ "_".toList ++
          numToString k ++ extname originalFilename ∧
      ∀ j, 1 ≤ j → j < k →
        basenameSuffix originalFilename (extname originalFilename) ++ "_".toList ++
          numToString j ++ extname originalFilename ∈ dir) ∧
    ('/' ∉ originalFilename →
      basenameSuffix originalFilename (extname originalFilename) ++ extname originalFilename =
        originalFilename ∧
      (extname originalFilename = [] ∨
        ∃ rest, extname originalFilename = '.' :: rest ∧ '.' ∉ rest)) := by
  have hbase := getUniqueFilenameLoop_total dir originalFilename (dir.length + 2) (le_refl _)
  refine ⟨?_, getUniqueFilename_not_mem dir originalFilename, ?_, ?_,
    extname_of_no_slash originalFilename⟩
  · intro fuel hfuel
    unfold getUniqueFilename
    rcases getUniqueFilenameLoop_total dir originalFilename fuel hfuel with
      ⟨h, heq⟩ | ⟨h, k, hk, heq, hnot, hmin⟩
    · rcases hbase with ⟨_, heq0⟩ | ⟨h0, _⟩
      · rw [heq, heq0]; rfl
      · exact absurd h0 h
    · rcases hbase with ⟨h0, _⟩ | ⟨_, k0, hk0, heq0, hnot0, hmin0⟩
      · exact absurd h h0
      · rw [heq, heq0]
        have : k = k0 := by
          rcases Nat.lt_trichotomy k k0 with hlt | heq | hgt
          · exact absurd (hmin0 k hk hlt) hnot
          · exact heq
          · exact absurd (hmin k0 hk0 hgt) hnot0
        rw [this]; rfl
  · intro h
    unfold getUniqueFilename
    rcases hbase with ⟨_, heq0⟩ | ⟨h0, _⟩
    · rw [heq0]; rfl
    · exact absurd h0 h
  · intro h
    unfold getUniqueFilename
    rcases hbase with ⟨h0, _⟩ | ⟨_, k0, hk0, heq0, _, hmin0⟩
    · exact absurd h h0
    · exact ⟨k0, hk0, by rw [heq0]; rfl, hmin0⟩

/-- C7 at a concrete directory: `a.jpg` and `a_1.jpg` exist, so `a.jpg`
resolves to `a_2.jpg`; `b.png` is free and is returned unchanged. -/
theorem getUniqueFilename_spec_witness :
    getUniqueFilename ["a.jpg".toList, "a_1.jpg".toList] "a.jpg".toList = "a_2.jpg".toList ∧
    getUniqueFilename ["a.jpg".toList, "a_1.jpg".toList] "b.png".toList = "b.png".toList ∧
    basenameSuffix "a.jpg".toList (extname "a.jpg".toList) ++ extname "a.jpg".toList =
      "a.jpg".toList :=
  ⟨by decide,
   (getUniqueFilename_spec ["a.jpg".toList, "a_1.jpg".toList] "b.png".toList).2.2.1
     (by decide),
   ((getUniqueFilename_spec ["a.jpg".toList, "a_1.jpg".toList] "a.jpg".toList).2.2.2.2
     (by decide)).1⟩

/-! ## `checkDuplicate`: verdict and effect on the running list -/

theorem scanDuplicate_iff (hash : Str) (size : Nat) (existingHashes : List HashRecord) :
    scanDuplicate hash size existingHashes = true ↔
      ∃ existing ∈ existingHashes,
        existing.hash = hash ∨ absDiff existing.size size < 1024 := by
  induction existingHashes with
  | nil => simp [scanDuplicate]
  | cons r rest ih =>
    by_cases h : r.hash = hash ∨ absDiff r.size size < 1024
    · simp only [scanDuplicate, if_pos h, List.mem_cons, true_iff]
      exact ⟨r, Or.inl rfl, h⟩
    · simp only [scanDuplicate, if_neg h, ih, List.mem_cons]
      constructor
      · rintro ⟨e, he, hp⟩
        exact ⟨e, Or.inr he, hp⟩
      · rintro ⟨e, he | he, hp⟩
        · exact absurd (he ▸ hp) h
        · exact ⟨e, he, hp⟩

theorem checkDuplicate_fst (hash : Str) (size : Nat) (existingHashes : List HashRecord) :
    (checkDuplicate hash size existingHashes).1 = scanDuplicate hash size existingHashes := by
  unfold checkDuplicate
  split <;> simp_all

theorem checkDuplicate_snd (hash : Str) (size : Nat) (existingHashes : List HashRecord) :
    (checkDuplicate hash size existingHashes).2 =
      if scanDuplicate hash size existingHashes then existingHashes
      else existingHashes ++ [{ hash := hash, size := size }] := by
  unfold checkDuplicate
  split <;> simp_all

/-- C3: `checkDuplicate` answers `true` exactly when some record already in
`existingHashes` has the file's hash, or a size whose absolute difference from
the file's size is below 1024 bytes. -/
theorem checkDuplicate_true_iff (hash : Str) (size : Nat) (existingHashes : List HashRecord) :
    (checkDuplicate hash size existingHashes).1 = true ↔
      ∃ existing ∈ existingHashes,
        existing.hash = hash ∨
          Int.natAbs ((existing.size : Int) - (size : Int)) < 1024 := by
  rw [checkDuplicate_fst]
  exact scanDuplicate_iff hash size existingHashes

/-- C4: when `checkDuplicate` answers `false` the list afterwards is the list
before followed by the one record `{hash, size}` of the file; when it answers
`true` the list is unchanged; either way every earlier record keeps its
position and value. -/
theorem checkDuplicate_effect (hash : Str) (size : Nat) (existingHashes : List HashRecord) :
    ((checkDuplicate hash size existingHashes).1 = false →
        (checkDuplicate hash size existingHashes).2 =
          existingHashes ++ [{ hash := hash, size := size }]) ∧
    ((checkDuplicate hash size existingHashes).1 = true →
        (checkDuplicate hash size existingHashes).2 = existingHashes) ∧
    (∀ i, i < existingHashes.length →
        (checkDuplicate hash size existingHashes).2[i]? = existingHashes[i]?) ∧
    existingHashes.length ≤ (checkDuplicate hash size existingHashes).2.length := by
  rw [checkDuplicate_fst, checkDuplicate_snd]
  cases h : scanDuplicate hash size existingHashes
  · refine ⟨fun _ => by simp, fun h => by simp at h, fun i hi => ?_, by simp⟩
    simp [List.getElem?_append_left hi]
  · refine ⟨fun h => by simp at h, fun _ => by simp, fun i _ => by simp, by simp⟩

/-- Both branches of C4 at concrete inputs: a file unlike the one recorded is
appended, a file 100 bytes larger than the one recorded leaves the list
alone. -/
theorem checkDuplicate_effect_witness :
    (checkDuplicate "h2".toList 5000 [{ hash := "h1".toList, size := 2000 }]).2 =
        [{ hash := "h1".toList, size := 2000 }, { hash := "h2".toList, size := 5000 }] ∧
    (checkDuplicate "h2".toList 2100 [{ hash := "h1".toList, size := 2000 }]).2 =
        [{ hash := "h1".toList, size := 2000 }] :=
  ⟨(checkDuplicate_effect "h2".toList 5000 [{ hash := "h1".toList, size := 2000 }]).1
      (by decide),
   (checkDuplicate_effect "h2".toList 2100 [{ hash := "h1".toList, size := 2000 }]).2.1
      (by decide)⟩

/-! ## The batch loops -/

theorem mem_writeFile (dir : List Str) (name n : Str) :
    n ∈ writeFile dir name ↔ n = name ∨ n ∈ dir := by
  unfold writeFile
  split
  · constructor
    · exact Or.inr
    · rintro (rfl | h)
      · assumption
      · exact h
  · simp

theorem mem_unlink (dir : List Str) (name n : Str) :
    n ∈ unlink dir name ↔ n ∈ dir ∧ n ≠ name := by
  simp [unlink]

theorem absDiff_comm (a b : Nat) : absDiff a b = absDiff b a := by
  unfold absDiff
  omega

theorem Apart.symm {a b : HashRecord} (h : Apart a b) : Apart b a :=
  ⟨fun e => h.1 e.symm, by rw [absDiff_comm]; exact h.2⟩

theorem apart_of_scan_false (hash : Str) (size : Nat) (existingHashes : List HashRecord)
    (h : scanDuplicate hash size existingHashes = false) :
    ∀ e ∈ existingHashes, Apart e { hash := hash, size := size } := by
  intro e he
  have hn : ¬ (scanDuplicate hash size existingHashes = true) := by simp [h]
  rw [scanDuplicate_iff] at hn
  have := fun hp => hn ⟨e, he, hp⟩
  unfold Apart
  constructor
  · exact fun heq => this (Or.inl heq)
  · by_contra hlt
    exact this (Or.inr (by simpa using hlt))

theorem pairwise_getElem? {α : Type} {R : α → α → Prop} (hs : ∀ a b, R a b → R b a)
    {l : List α} (h : l.Pairwise R) (i j : Nat) (a b : α) (hij : i ≠ j)
    (hi : l[i]? = some a) (hj : l[j]? = some b) : R a b := by
  rw [List.pairwise_iff_getElem] at h
  obtain ⟨hi', rfl⟩ := List.getElem?_eq_some.1 hi
  obtain ⟨hj', rfl⟩ := List.getElem?_eq_some.1 hj
  rcases Nat.lt_or_gt_of_ne hij with hlt | hgt
  · exact h i j hi' hj' hlt
  · exact hs _ _ (h j i hj' hi' hgt)

theorem pairwise_of_filter {α : Type} {R : α → α → Prop} (p : α → Bool) (l : List α)
    (h : (l.filter p).Pairwise R) :
    l.Pairwise (fun x y => p x = true → p y = true → R x y) := by
  induction l with
  | nil => exact List.Pairwise.nil
  | cons x rest ih =>
    by_cases hx : p x = true
    · rw [List.filter_cons_of_pos hx, List.pairwise_cons] at h
      refine List.pairwise_cons.2 ⟨fun y hy _ hpy => ?_, ih h.2⟩
      exact h.1 y (List.mem_filter.2 ⟨hy, hpy⟩)
    · rw [List.filter_cons_of_neg hx] at h
      exact List.pairwise_cons.2 ⟨fun y _ hpx => absurd hpx hx, ih h⟩

theorem marsStep_length_le (rover : Str) (photo : Photo) (outcome : FetchOutcome)
    (st : MarsState) :
    (marsStep rover photo outcome st).downloadedFiles.length ≤ st.downloadedFiles.length + 1 := by
  unfold marsStep
  cases outcome with
  | failed b => simp
  | ok hash size =>
    simp only
    split <;> simp

theorem marsLoop_length_le (rover : Str) (count : Nat) (cands : List (Photo × FetchOutcome)) :
    ∀ st : MarsState, st.downloadedFiles.length ≤ count →
      (marsLoop rover count cands st).downloadedFiles.length ≤ count := by
  induction cands with
  | nil => intro st h; simpa [marsLoop] using h
  | cons c rest ih =>
    intro st h
    obtain ⟨photo, outcome⟩ := c
    unfold marsLoop
    split
    · exact h
    · apply ih
      have := marsStep_length_le rover photo outcome st
      omega

theorem marsStep_inv (rover : Str) (photo : Photo) (outcome : FetchOutcome)
    (st : MarsState) (h : MarsInv st) : MarsInv (marsStep rover photo outcome st) := by
  have hname := getUniqueFilename_not_mem st.dir
    (marsFilename rover photo st.downloadedFiles.length)
  obtain ⟨h1, h2, h3, h4⟩ := h
  unfold marsStep
  cases outcome with
  | failed b =>
    refine ⟨fun f hf => ?_, h2, h3, h4⟩
    simp only
    split
    · exact (mem_writeFile _ _ _).2 (Or.inr (h1 f hf))
    · exact h1 f hf
  | ok hash size =>
    simp only [checkDuplicate_fst, checkDuplicate_snd]
    cases hscan : scanDuplicate hash size st.existingHashes
    · simp only [Bool.false_eq_true, if_false]
      refine ⟨fun f hf => ?_, ?_, ?_, ?_⟩
      · rcases List.mem_append.1 hf with hf | hf
        · exact (mem_writeFile _ _ _).2 (Or.inr (h1 f hf))
        · simp only [List.mem_singleton] at hf
          subst hf
          exact (mem_writeFile _ _ _).2 (Or.inl rfl)
      · rw [List.map_append, List.nodup_append]
        refine ⟨h2, by simp, ?_⟩
        intro n hn hn'
        simp only [List.map_cons, List.map_nil, List.mem_singleton] at hn'
        subst hn'
        obtain ⟨f, hf, hfn⟩ := List.mem_map.1 hn
        exact hname (hfn ▸ h1 f hf)
      · simp [h3, MarsFile.record]
      · rw [List.pairwise_append]
        refine ⟨h4, by simp, ?_⟩
        intro a ha b hb
        simp only [List.mem_singleton] at hb
        subst hb
        exact apart_of_scan_false hash size _ hscan a ha
    · simp only [if_true]
      refine ⟨fun f hf => ?_, h2, h3, h4⟩
      refine (mem_unlink _ _ _).2 ⟨(mem_writeFile _ _ _).2 (Or.inr (h1 f hf)), ?_⟩
      intro heq
      exact hname (heq ▸ h1 f hf)

theorem marsLoop_inv (rover : Str) (count : Nat) (cands : List (Photo × FetchOutcome)) :
    ∀ st : MarsState, MarsInv st → MarsInv (marsLoop rover count cands st) := by
  induction cands with
  | nil => intro st h; simpa [marsLoop] using h
  | cons c rest ih =>
    intro st h
    obtain ⟨photo, outcome⟩ := c
    unfold marsLoop
    split
    · exact h
    · exact ih _ (marsStep_inv rover photo outcome st h)

theorem marsInv_init (dir0 : List Str) :
    MarsInv { dir := dir0, existingHashes := [], downloadedFiles := [] } :=
  ⟨by simp, by simp, by simp, by simp⟩

theorem downloadMarsPhotos_inv (rover : Str) (count : Nat) (dir0 : List Str)
    (photos : List (Photo × FetchOutcome)) :
    (downloadMarsPhotos rover count dir0 photos).manifest.length ≤ count ∧
    ((downloadMarsPhotos rover count dir0 photos).manifest.map (fun f => f.filename)).Nodup ∧
    ((downloadMarsPhotos rover count dir0 photos).manifest.map MarsFile.record).Pairwise
      Apart := by
  unfold downloadMarsPhotos
  split
  · simp [MarsResult.manifest]
  · simp only [MarsResult.manifest]
    have hinv := marsLoop_inv rover count (photos.take (count * 2)) _ (marsInv_init dir0)
    refine ⟨marsLoop_length_le rover count _ _ (by simp), hinv.names_nodup, ?_⟩
    rw [← hinv.hashes_eq]
    exact hinv.hashes_apart

theorem downloadNASAImage_length_le (item : MediaItem) (env : ItemEnv) (st : MediaState) :
    (downloadNASAImage item env st).downloadedFiles.length ≤ st.downloadedFiles.length + 1 := by
  unfold downloadNASAImage
  split
  · simp
  · cases env.fetch with
    | failed b => simp
    | ok hash size =>
      simp only
      split <;> simp

theorem downloadNASAVideo_length_le (item : MediaItem) (env : ItemEnv) (st : MediaState) :
    (downloadNASAVideo item env st).downloadedFiles.length ≤ st.downloadedFiles.length + 1 := by
  unfold downloadNASAVideo
  split
  · simp
  · split
    · simp
    · split
      · simp
      · split
        · simp
        · cases env.fetch with
          | failed b => simp
          | ok hash size =>
            simp only
            split <;> simp

theorem mediaStep_length_le (media_type : Str) (item : MediaItem) (env : ItemEnv)
    (st : MediaState) :
    (mediaStep media_type item env st).downloadedFiles.length ≤
      st.downloadedFiles.length + 1 := by
  unfold mediaStep
  split
  · exact downloadNASAImage_length_le item env st
  · split
    · exact downloadNASAVideo_length_le item env st
    · simp

theorem mediaLoop_length_le (media_type : Str) (count : Nat)
    (items : List (MediaItem × ItemEnv)) :
    ∀ st : MediaState, st.downloadedFiles.length ≤ count →
      (mediaLoop media_type count items st).downloadedFiles.length ≤ count := by
  induction items with
  | nil => intro st h; simpa [mediaLoop] using h
  | cons c rest ih =>
    intro st h
    obtain ⟨item, env⟩ := c
    unfold mediaLoop
    split
    · exact h
    · apply ih
      have := mediaStep_length_le media_type item env st
      omega

theorem media_failed_inv (st : MediaState) (h : MediaInv st) (b : Bool) (name : Str) :
    MediaInv { st with dir := if b then writeFile st.dir name else st.dir } := by
  obtain ⟨h1, h2, h3, h4⟩ := h
  refine ⟨fun f hf => ?_, h2, h3, h4⟩
  simp only
  split
  · exact (mem_writeFile _ _ _).2 (Or.inr (h1 f hf))
  · exact h1 f hf

theorem downloadNASAImage_inv (item : MediaItem) (env : ItemEnv) (st : MediaState)
    (h : MediaInv st) : MediaInv (downloadNASAImage item env st) := by
  unfold downloadNASAImage
  split
  · exact h
  · rename_i imageLink _
    have hname := getUniqueFilename_not_mem st.dir
      (imageFilename (selectImageUrl env.reachable imageLink.2) st.downloadedFiles.length)
    cases env.fetch with
    | failed b => exact media_failed_inv st h b _
    | ok hash size =>
      obtain ⟨h1, h2, h3, h4⟩ := h
      simp only [checkDuplicate_fst, checkDuplicate_snd]
      cases hscan : scanDuplicate hash size st.existingHashes
      · simp only [Bool.false_eq_true, if_false]
        refine ⟨fun f hf => ?_, ?_, ?_, ?_⟩
        · rcases List.mem_append.1 hf with hf | hf
          · exact (mem_writeFile _ _ _).2 (Or.inr (h1 f hf))
          · simp only [List.mem_singleton] at hf
            subst hf
            exact (mem_writeFile _ _ _).2 (Or.inl rfl)
        · rw [List.map_append, List.nodup_append]
          refine ⟨h2, by simp, ?_⟩
          intro n hn hn'
          simp only [List.map_cons, List.map_nil, List.mem_singleton] at hn'
          subst hn'
          obtain ⟨f, hf, hfn⟩ := List.mem_map.1 hn
          exact hname (hfn ▸ h1 f hf)
        · simp [h3, MediaFile.record, MediaFile.isImage]
        · rw [List.pairwise_append]
          refine ⟨h4, by simp, ?_⟩
          intro a ha b hb
          simp only [List.mem_singleton] at hb
          subst hb
          exact apart_of_scan_false hash size _ hscan a ha
      · simp only [if_true]
        refine ⟨fun f hf => ?_, h2, h3, h4⟩
        refine (mem_unlink _ _ _).2 ⟨(mem_writeFile _ _ _).2 (Or.inr (h1 f hf)), ?_⟩
        intro heq
        exact hname (heq ▸ h1 f hf)

theorem downloadNASAVideo_inv (item : MediaItem) (env : ItemEnv) (st : MediaState)
    (h : MediaInv st) : MediaInv (downloadNASAVideo item env st) := by
  unfold downloadNASAVideo
  split
  · exact h
  · split
    · exact h
    · split
      · exact h
      · split
        · exact h
        · rename_i videoUrl _
          have hname := getUniqueFilename_not_mem st.dir
            (videoFilename videoUrl st.downloadedFiles.length)
          cases env.fetch with
          | failed b => exact media_failed_inv st h b _
          | ok hash size =>
            obtain ⟨h1, h2, h3, h4⟩ := h
            simp only
            split
            · refine ⟨fun f hf => ?_, h2, h3, h4⟩
              refine (mem_unlink _ _ _).2 ⟨(mem_writeFile _ _ _).2 (Or.inr (h1 f hf)), ?_⟩
              intro heq
              exact hname (heq ▸ h1 f hf)
            · refine ⟨fun f hf => ?_, ?_, ?_, h4⟩
              · rcases List.mem_append.1 hf with hf | hf
                · exact (mem_writeFile _ _ _).2 (Or.inr (h1 f hf))
                · simp only [List.mem_singleton] at hf
                  subst hf
                  exact (mem_writeFile _ _ _).2 (Or.inl rfl)
              · rw [List.map_append, List.nodup_append]
                refine ⟨h2, by simp, ?_⟩
                intro n hn hn'
                simp only [List.map_cons, List.map_nil, List.mem_singleton] at hn'
                subst hn'
                obtain ⟨f, hf, hfn⟩ := List.mem_map.1 hn
                exact hname (hfn ▸ h1 f hf)
              · simp only [h3, List.filter_append]
                have : List.filter MediaFile.isImage
                    [({ filename := getUniqueFilename st.dir
                          (videoFilename videoUrl st.downloadedFiles.length),
                        title := titleOf item, type := "video".toList, size := size,
                        hash := hash } : MediaFile)] = [] := by
                  rw [List.filter_cons_of_neg]
                  · rfl
                  · simp [MediaFile.isImage]
                rw [this, List.append_nil]

theorem mediaStep_inv (media_type : Str) (item : MediaItem) (env : ItemEnv)
    (st : MediaState) (h : MediaInv st) : MediaInv (mediaStep media_type item env st) := by
  unfold mediaStep
  split
  · exact downloadNASAImage_inv item env st h
  · split
    · exact downloadNASAVideo_inv item env st h
    · exact h

theorem mediaLoop_inv (media_type : Str) (count : Nat) (items : List (MediaItem × ItemEnv)) :
    ∀ st : MediaState, MediaInv st → MediaInv (mediaLoop media_type count items st) := by
  induction items with
  | nil => intro st h; simpa [mediaLoop] using h
  | cons c rest ih =>
    intro st h
    obtain ⟨item, env⟩ := c
    unfold mediaLoop
    split
    · exact h
    · exact ih _ (mediaStep_inv media_type item env st h)

theorem downloadNASAMedia_inv (media_type order : Str) (count : Nat) (draw : Nat → Nat)
    (dir0 : List Str) (items : List (MediaItem × ItemEnv)) :
    (downloadNASAMedia media_type order count draw dir0 items).manifest.length ≤ count ∧
    ((downloadNASAMedia media_type order count draw dir0 items).manifest.map
      (fun f => f.filename)).Nodup ∧
    (((downloadNASAMedia media_type order count draw dir0 items).manifest.filter
      MediaFile.isImage).map MediaFile.record).Pairwise Apart := by
  unfold downloadNASAMedia
  split
  · simp [MediaResult.manifest]
  · simp only [MediaResult.manifest]
    have hinv := mediaLoop_inv media_type count
      ((if order = "random".toList then shuffle draw items else items).take (count * 2)) _
      (⟨by simp, by simp, by simp, by simp⟩ :
        MediaInv { dir := dir0, existingHashes := [], downloadedFiles := [] })
    refine ⟨mediaLoop_length_le media_type count _ _ (by simp), hinv.names_nodup, ?_⟩
    rw [← hinv.hashes_eq]
    exact hinv.hashes_apart

/-- C1: the manifest returned by `downloadMarsPhotos` and the manifest returned
by `downloadNASAMedia` have at most `count` entries, for every candidate list
and every outcome of the fetches. -/
theorem manifest_length_le_count (rover : Str) (count : Nat) (dir0 : List Str)
    (photos : List (Photo × FetchOutcome)) (media_type order : Str) (mediaCount : Nat)
    (draw : Nat → Nat) (mediaDir0 : List Str) (items : List (MediaItem × ItemEnv)) :
    (downloadMarsPhotos rover count dir0 photos).manifest.length ≤ count ∧
    (downloadNASAMedia media_type order mediaCount draw mediaDir0 items).manifest.length ≤
      mediaCount :=
  ⟨(downloadMarsPhotos_inv rover count dir0 photos).1,
   (downloadNASAMedia_inv media_type order mediaCount draw mediaDir0 items).1⟩

/-- C8: within one batch of `downloadMarsPhotos` or of `downloadNASAMedia`, the
file names of the manifest entries are pairwise different, whatever the
candidates' base names and whichever fetches fail or are discarded. -/
theorem manifest_filenames_nodup (rover : Str) (count : Nat) (dir0 : List Str)
    (photos : List (Photo × FetchOutcome)) (media_type order : Str) (mediaCount : Nat)
    (draw : Nat → Nat) (mediaDir0 : List Str) (items : List (MediaItem × ItemEnv)) :
    ((downloadMarsPhotos rover count dir0 photos).manifest.map (fun f => f.filename)).Nodup ∧
    ((downloadNASAMedia media_type order mediaCount draw mediaDir0 items).manifest.map
      (fun f => f.filename)).Nodup :=
  ⟨(downloadMarsPhotos_inv rover count dir0 photos).2.1,
   (downloadNASAMedia_inv media_type order mediaCount draw mediaDir0 items).2.1⟩

/-- C5, as the code has it: any two distinct entries of a manifest of
`downloadMarsPhotos`, and any two distinct image entries of a manifest of
`downloadNASAMedia`, have different digests and sizes at least 1024 bytes
apart. Video entries are outside the statement: they are stored without a
duplicate check. -/
theorem manifest_entries_apart (rover : Str) (count : Nat) (dir0 : List Str)
    (photos : List (Photo × FetchOutcome)) (media_type order : Str) (mediaCount : Nat)
    (draw : Nat → Nat) (mediaDir0 : List Str) (items : List (MediaItem × ItemEnv)) :
    (∀ (i j : Nat) (a b : MarsFile), i ≠ j →
      (downloadMarsPhotos rover count dir0 photos).manifest[i]? = some a →
      (downloadMarsPhotos rover count dir0 photos).manifest[j]? = some b →
      a.hash ≠ b.hash ∧ 1024 ≤ absDiff a.size b.size) ∧
    (∀ (i j : Nat) (a b : MediaFile), i ≠ j →
      (downloadNASAMedia media_type order mediaCount draw mediaDir0 items).manifest[i]? =
        some a →
      (downloadNASAMedia media_type order mediaCount draw mediaDir0 items).manifest[j]? =
        some b →
      a.type = "image".toList → b.type = "image".toList →
      a.hash ≠ b.hash ∧ 1024 ≤ absDiff a.size b.size) := by
  constructor
  · intro i j a b hij hi hj
    have h := (downloadMarsPhotos_inv rover count dir0 photos).2.2
    rw [List.pairwise_map] at h
    exact pairwise_getElem? (R := fun a b : MarsFile => Apart a.record b.record)
      (fun _ _ h => h.symm) h i j a b hij hi hj
  · intro i j a b hij hi hj ha hb
    have h := (downloadNASAMedia_inv media_type order mediaCount draw mediaDir0 items).2.2
    rw [List.pairwise_map] at h
    have h := pairwise_of_filter _ _ h
    have hsym : ∀ x y : MediaFile,
        (x.isImage = true → y.isImage = true → Apart x.record y.record) →
        (y.isImage = true → x.isImage = true → Apart y.record x.record) :=
      fun _ _ h hy hx => (h hx hy).symm
    exact pairwise_getElem? hsym h i j a b hij hi hj (by simp [MediaFile.isImage, ha])
      (by simp [MediaFile.isImage, hb])

/-- C5 (amended) at a concrete batch: the two photos kept out of
`duplicatePairBatch` at positions 0 and 1 differ in digest and by at least 1024
bytes. -/
theorem manifest_entries_apart_witness :
    ("h0".toList ≠ "h1".toList) ∧ 1024 ≤ absDiff 10000 20000 :=
  (manifest_entries_apart "curiosity".toList 4 [] (duplicatePairBatch.map succeeding)
    [] [] 0 (fun _ => 0) [] []).1 0 1
    { filename := "a.jpg".toList, rover := "Curiosity".toList,
      camera := "Front Hazard Avoidance Camera".toList, sol := 1000,
      earth_date := "2015-05-30".toList, size := 10000, hash := "h0".toList }
    { filename := "b.jpg".toList, rover := "Curiosity".toList,
      camera := "Front Hazard Avoidance Camera".toList, sol := 1000,
      earth_date := "2015-05-30".toList, size := 20000, hash := "h1".toList }
    (by decide) (by decide) (by decide)

/-- C5 as stated fails on videos: with `media_type = 'video'`, two videos of
identical content are both in the manifest, with the same digest and the same
size. -/
theorem video_duplicates_both_kept :
    (downloadNASAMedia "video".toList "latest".toList 5 (fun _ => 0) []
        duplicateVideoBatch).manifest =
      [{ filename := "a~orig.mp4".toList, title := "Launch".toList, type := "video".toList,
         size := 5000, hash := "d41d8cd9".toList },
       { filename := "b~orig.mp4".toList, title := "Launch again".toList,
         type := "video".toList, size := 5000, hash := "d41d8cd9".toList }] ∧
    ¬ (∀ (i j : Nat) (a b : MediaFile), i ≠ j →
      (downloadNASAMedia "video".toList "latest".toList 5 (fun _ => 0) []
        duplicateVideoBatch).manifest[i]? = some a →
      (downloadNASAMedia "video".toList "latest".toList 5 (fun _ => 0) []
        duplicateVideoBatch).manifest[j]? = some b →
      a.hash ≠ b.hash ∨ 1024 ≤ absDiff a.size b.size) := by
  have h : (downloadNASAMedia "video".toList "latest".toList 5 (fun _ => 0) []
        duplicateVideoBatch).manifest =
      [{ filename := "a~orig.mp4".toList, title := "Launch".toList, type := "video".toList,
         size := 5000, hash := "d41d8cd9".toList },
       { filename := "b~orig.mp4".toList, title := "Launch again".toList,
         type := "video".toList, size := 5000, hash := "d41d8cd9".toList }] := by
    decide
  refine ⟨h, fun hall => ?_⟩
  have := hall 0 1 _ _ (by decide) (by rw [h]; rfl) (by rw [h]; rfl)
  revert this
  decide

/-! ## The manifest of `downloadMarsPhotos`, candidate by candidate -/

theorem marsLoop_manifest (rover : Str) (count : Nat) (cands : List (Photo × FetchOutcome)) :
    ∀ st : MarsState,
      (marsLoop rover count cands st).downloadedFiles.map MarsFile.echo =
        st.downloadedFiles.map MarsFile.echo ++
          ((keptCandidates cands st.existingHashes).take
            (count - st.downloadedFiles.length)).map photoEcho := by
  induction cands with
  | nil => intro st; simp [marsLoop, keptCandidates]
  | cons c rest ih =>
    intro st
    obtain ⟨photo, outcome⟩ := c
    unfold marsLoop
    split
    · rename_i hge
      have : count - st.downloadedFiles.length = 0 := by omega
      simp [this]
    · rename_i hlt
      rw [ih]
      cases outcome with
      | failed b => simp [marsStep, keptCandidates]
      | ok hash size =>
        simp only [marsStep, keptCandidates, checkDuplicate_fst, checkDuplicate_snd]
        cases hscan : scanDuplicate hash size st.existingHashes
        · obtain ⟨m, hm⟩ : ∃ m, count - st.downloadedFiles.length = m + 1 :=
            ⟨count - st.downloadedFiles.length - 1, by omega⟩
          have hm' : count - (st.downloadedFiles.length + 1) = m := by omega
          simp [hm, hm', MarsFile.echo, photoEcho]
        · simp

theorem keptCandidates_of_apart (files : List (Photo × Str × Nat)) :
    ∀ records : List HashRecord,
      (records ++ files.map candidateRecord).Pairwise Apart →
      keptCandidates (files.map succeeding) records = files := by
  induction files with
  | nil => intro records _; simp [keptCandidates]
  | cons c rest ih =>
    intro records h
    obtain ⟨photo, hash, size⟩ := c
    have hscan : scanDuplicate hash size records = false := by
      cases hs : scanDuplicate hash size records
      · rfl
      · obtain ⟨e, he, hp⟩ := (scanDuplicate_iff hash size records).1 hs
        rw [List.pairwise_append] at h
        have hap : Apart e { hash := hash, size := size } :=
          h.2.2 e he _ (by simp [candidateRecord])
        rcases hp with hp | hp
        · exact absurd hp hap.1
        · have := hap.2
          simp only at this
          omega
    simp only [List.map_cons, succeeding, keptCandidates, checkDuplicate_fst, hscan,
      Bool.false_eq_true, if_false, List.cons.injEq, true_and]
    apply ih
    simpa [candidateRecord] using h

theorem keptCandidates_append (a b : List (Photo × FetchOutcome)) :
    ∀ records : List HashRecord,
      keptCandidates (a ++ b) records =
        keptCandidates a records ++
          keptCandidates b (records ++ (keptCandidates a records).map candidateRecord) := by
  induction a with
  | nil => intro records; simp [keptCandidates]
  | cons c rest ih =>
    intro records
    obtain ⟨photo, outcome⟩ := c
    cases outcome with
    | failed bb => simpa [keptCandidates] using ih records
    | ok hash size =>
      simp only [List.cons_append, keptCandidates]
      split
      · exact ih records
      · simp [ih, candidateRecord]

theorem downloadMarsPhotos_manifest_eq (rover : Str) (count : Nat) (dir0 : List Str)
    (photos : List (Photo × FetchOutcome)) :
    (downloadMarsPhotos rover count dir0 photos).manifest.map MarsFile.echo =
      ((keptCandidates (photos.take (2 * count)) []).take count).map photoEcho := by
  unfold downloadMarsPhotos
  split
  · rename_i h0
    have : photos = [] := List.length_eq_zero.1 h0
    simp [MarsResult.manifest, this, keptCandidates]
  · simp only [MarsResult.manifest]
    rw [marsLoop_manifest, Nat.mul_comm]
    simp

/-- C2: the manifest of `downloadMarsPhotos` consists, in input order, of the
first `count` of the candidates among the first `2 * count` photos whose fetch
succeeded and which `checkDuplicate` did not judge duplicate against the
records of the earlier kept ones; a failed fetch changes neither the manifest
nor the record list, and the candidates after it are still processed; when
every fetch succeeds and the files are pairwise apart, the manifest is the
first `min count n` candidates in input order. -/
theorem downloadMarsPhotos_manifest (rover : Str) (count : Nat) (dir0 : List Str)
    (photos : List (Photo × FetchOutcome)) :
    (downloadMarsPhotos rover count dir0 photos).manifest.map MarsFile.echo =
        ((keptCandidates (photos.take (2 * count)) []).take count).map photoEcho ∧
    (∀ (photo : Photo) (leavesFile : Bool) (st : MarsState),
        (marsStep rover photo (.failed leavesFile) st).downloadedFiles = st.downloadedFiles ∧
        (marsStep rover photo (.failed leavesFile) st).existingHashes = st.existingHashes) ∧
    (∀ files : List (Photo × Str × Nat), photos = files.map succeeding →
        (files.map candidateRecord).Pairwise Apart →
        (downloadMarsPhotos rover count dir0 photos).manifest.map MarsFile.echo =
          (files.take (min count files.length)).map photoEcho) := by
  have hmain := downloadMarsPhotos_manifest_eq rover count dir0 photos
  refine ⟨hmain, fun photo b st => by simp [marsStep], ?_⟩
  intro files hfiles hap
  rw [hmain, hfiles, ← List.map_take]
  have hap' : ([] ++ (files.take (2 * count)).map candidateRecord).Pairwise Apart := by
    rw [List.nil_append, List.map_take]
    exact hap.sublist (List.take_sublist _ _)
  rw [keptCandidates_of_apart _ [] hap', List.take_take]
  have h1 : min count (2 * count) = count := by omega
  rw [h1]
  congr 1
  exact List.take_eq_take.2 (by omega)

/-- C2 on the scenario of the specification: 5 candidates, `count = 3`, every
fetch succeeds and no file is a duplicate; the manifest is the first 3
candidates in input order. -/
theorem downloadMarsPhotos_manifest_witness :
    (downloadMarsPhotos "curiosity".toList 3 [] (fivePhotoBatch.map succeeding)).manifest.map
        MarsFile.echo =
      (fivePhotoBatch.take (min 3 fivePhotoBatch.length)).map photoEcho :=
  (downloadMarsPhotos_manifest "curiosity".toList 3 [] (fivePhotoBatch.map succeeding)).2.2
    fivePhotoBatch rfl (by decide)

/-! ## A batch with one duplicate pair -/

theorem marsStep_dir_ok (rover : Str) (dir0 : List Str) (photo : Photo) (hash : Str)
    (size : Nat) (st : MarsState)
    (h : ∀ n, n ∈ st.dir ↔ n ∈ dir0 ∨ n ∈ st.downloadedFiles.map (fun f => f.filename)) :
    ∀ n, n ∈ (marsStep rover photo (.ok hash size) st).dir ↔
      n ∈ dir0 ∨
        n ∈ (marsStep rover photo (.ok hash size) st).downloadedFiles.map
          (fun f => f.filename) := by
  have hname := getUniqueFilename_not_mem st.dir
    (marsFilename rover photo st.downloadedFiles.length)
  intro n
  simp only [marsStep, checkDuplicate_fst, checkDuplicate_snd]
  cases hscan : scanDuplicate hash size st.existingHashes
  · simp only [Bool.false_eq_true, if_false, mem_writeFile, h n, List.map_append,
      List.mem_append, List.map_cons, List.map_nil, List.mem_singleton]
    tauto
  · simp only [if_true, mem_unlink, mem_writeFile]
    rw [← h n]
    constructor
    · rintro ⟨h1 | h1, h2⟩
      · exact absurd h1 h2
      · exact h1
    · intro h1
      exact ⟨Or.inr h1, fun heq => hname (heq ▸ h1)⟩

theorem marsLoop_dir_ok (rover : Str) (count : Nat) (dir0 : List Str)
    (files : List (Photo × Str × Nat)) :
    ∀ st : MarsState,
      (∀ n, n ∈ st.dir ↔ n ∈ dir0 ∨ n ∈ st.downloadedFiles.map (fun f => f.filename)) →
      ∀ n, n ∈ (marsLoop rover count (files.map succeeding) st).dir ↔
        n ∈ dir0 ∨
          n ∈ (marsLoop rover count (files.map succeeding) st).downloadedFiles.map
            (fun f => f.filename) := by
  induction files with
  | nil => intro st h; simpa [marsLoop] using h
  | cons c rest ih =>
    intro st h
    simp only [List.map_cons, succeeding, marsLoop]
    split
    · exact h
    · exact ih _ (marsStep_dir_ok rover dir0 c.1 c.2.1 c.2.2 st h)

theorem keptCandidates_duplicate_pair (l1 l2 l3 : List (Photo × Str × Nat))
    (x y : Photo × Str × Nat)
    (hhash : x.2.1 = y.2.1)
    (hothers : ((l1 ++ x :: l2 ++ l3).map candidateRecord).Pairwise Apart) :
    keptCandidates ((l1 ++ x :: l2 ++ y :: l3).map succeeding) [] = l1 ++ x :: l2 ++ l3 := by
  have hA : ([] ++ (l1 ++ x :: l2).map candidateRecord).Pairwise Apart := by
    rw [List.nil_append]
    rw [List.map_append] at hothers
    exact (List.pairwise_append.1 hothers).1
  have hscan : scanDuplicate y.2.1 y.2.2 ((l1 ++ x :: l2).map candidateRecord) = true := by
    rw [scanDuplicate_iff]
    exact ⟨candidateRecord x, List.mem_map.2 ⟨x, by simp, rfl⟩, Or.inl hhash⟩
  rw [List.map_append, keptCandidates_append, keptCandidates_of_apart _ [] hA]
  simp only [List.nil_append, List.map_cons, succeeding, keptCandidates, checkDuplicate_fst,
    hscan, if_true]
  rw [keptCandidates_of_apart l3 _ (by simpa using hothers)]

/-- C6, as the code has it: 4 candidates, `count >= 4`, every fetch succeeds,
the files of `x` and of the later candidate `y` have the same digest and sizes
within 1000 bytes, every other pair differs in digest and by at least 1024
bytes in size. The batch completes with exactly 3 manifest entries, the
candidates other than `y` in input order, and the directory holds nothing but
its initial files and the files of the manifest. -/
theorem duplicate_pair_batch (rover : Str) (count : Nat) (dir0 : List Str)
    (l1 l2 l3 : List (Photo × Str × Nat)) (x y : Photo × Str × Nat)
    (hlen : (l1 ++ x :: l2 ++ y :: l3).length = 4) (hcount : 4 ≤ count)
    (hhash : x.2.1 = y.2.1) (_hsize : absDiff x.2.2 y.2.2 ≤ 1000)
    (hothers : ((l1 ++ x :: l2 ++ l3).map candidateRecord).Pairwise Apart)
    (_hy : ∀ z ∈ l1 ++ l2 ++ l3, Apart (candidateRecord z) (candidateRecord y)) :
    ∃ st, downloadMarsPhotos rover count dir0 ((l1 ++ x :: l2 ++ y :: l3).map succeeding) =
        .completed st ∧
      st.downloadedFiles.length = 3 ∧
      st.downloadedFiles.map MarsFile.echo = (l1 ++ x :: l2 ++ l3).map photoEcho ∧
      ∀ n, n ∈ st.dir ↔ n ∈ dir0 ∨ n ∈ st.downloadedFiles.map (fun f => f.filename) := by
  have hlen3 : (l1 ++ x :: l2 ++ l3).length = 3 := by
    simp only [List.length_append, List.length_cons] at hlen ⊢
    omega
  have hecho := downloadMarsPhotos_manifest_eq rover count dir0
    ((l1 ++ x :: l2 ++ y :: l3).map succeeding)
  have htake : ((l1 ++ x :: l2 ++ y :: l3).map succeeding).take (2 * count) =
      (l1 ++ x :: l2 ++ y :: l3).map succeeding :=
    List.take_of_length_le (by rw [List.length_map]; omega)
  rw [htake, keptCandidates_duplicate_pair l1 l2 l3 x y hhash hothers,
    List.take_of_length_le (by omega)] at hecho
  have hne : ¬ ((l1 ++ x :: l2 ++ y :: l3).map succeeding).length = 0 := by
    rw [List.length_map]; omega
  have hdir := marsLoop_dir_ok rover count dir0 (l1 ++ x :: l2 ++ y :: l3)
    { dir := dir0, existingHashes := [], downloadedFiles := [] } (by simp)
  have htake' : ((l1 ++ x :: l2 ++ y :: l3).map succeeding).take (count * 2) =
      (l1 ++ x :: l2 ++ y :: l3).map succeeding :=
    List.take_of_length_le (by rw [List.length_map]; omega)
  unfold downloadMarsPhotos at hecho ⊢
  rw [if_neg hne, htake'] at hecho ⊢
  simp only [MarsResult.manifest] at hecho
  refine ⟨_, rfl, ?_, hecho, hdir⟩
  have := congrArg List.length hecho
  rw [List.length_map, List.length_map, hlen3] at this
  exact this

/-- C6 (amended) on `duplicatePairBatch`: the manifest has 3 entries. -/
theorem duplicate_pair_batch_witness :
    ∃ st, downloadMarsPhotos "curiosity".toList 4 ["mars_photos_data.json".toList]
        (duplicatePairBatch.map succeeding) = .completed st ∧
      st.downloadedFiles.length = 3 ∧
      st.downloadedFiles.map MarsFile.echo =
        ([duplicatePairBatch[0]] ++ duplicatePairBatch[1] :: [] ++
          [duplicatePairBatch[3]]).map photoEcho ∧
      ∀ n, n ∈ st.dir ↔ n ∈ ["mars_photos_data.json".toList] ∨
        n ∈ st.downloadedFiles.map (fun f => f.filename) :=
  duplicate_pair_batch "curiosity".toList 4 ["mars_photos_data.json".toList]
    [duplicatePairBatch[0]] [] [duplicatePairBatch[3]]
    duplicatePairBatch[1] duplicatePairBatch[2]
    (by decide) (by decide) (by decide) (by decide) (by decide) (by decide)

/-- C6 as stated fails: on `duplicatePairBatch` (second and third file: same
digest, sizes 500 bytes apart) with `count = 4` the manifest has 3 entries, the
first file of the duplicate pair among them, not 2. -/
theorem duplicate_pair_manifest_has_three :
    (downloadMarsPhotos "curiosity".toList 4 ["mars_photos_data.json".toList]
        (duplicatePairBatch.map succeeding)).manifest.map (fun f => f.filename) =
      ["a.jpg".toList, "b.jpg".toList, "d.jpg".toList] ∧
    (downloadMarsPhotos "curiosity".toList 4 ["mars_photos_data.json".toList]
        (duplicatePairBatch.map succeeding)).manifest.length ≠ 2 := by
  decide

/-! ## The shuffle -/

theorem swap_eq_set {α : Type} (xs : List α) (i j : Nat) (hi : i < xs.length)
    (hj : j < xs.length) : swap xs i j = (xs.set i xs[j]).set j xs[i] := by
  simp [swap, List.getElem?_eq_getElem hi, List.getElem?_eq_getElem hj]

theorem swap_eq_self_of_le {α : Type} (xs : List α) (i j : Nat) (hi : xs.length ≤ i) :
    swap xs i j = xs := by
  simp [swap, List.getElem?_eq_none hi]

theorem length_swap {α : Type} (xs : List α) (i j : Nat) : (swap xs i j).length = xs.length := by
  unfold swap
  split <;> simp

theorem getElem?_swap {α : Type} (xs : List α) (i j m : Nat) (hi : i < xs.length)
    (hj : j < xs.length) :
    (swap xs i j)[m]? = if m = j then xs[i]? else if m = i then xs[j]? else xs[m]? := by
  rw [swap_eq_set xs i j hi hj, List.getElem?_set, List.getElem?_set]
  by_cases h1 : j = m
  · subst h1
    simp [hj, hi]
  · by_cases h2 : i = m
    · subst h2
      simp [h1, hi, hj, Ne.symm h1]
    · simp [h1, h2, Ne.symm h1, Ne.symm h2]

theorem swap_perm {α : Type} (xs : List α) (i j : Nat) : (swap xs i j).Perm xs := by
  classical
  unfold swap
  split
  · rename_i x y hx hy
    obtain ⟨hi, rfl⟩ := List.getElem?_eq_some.1 hx
    obtain ⟨hj, rfl⟩ := List.getElem?_eq_some.1 hy
    rw [List.perm_iff_count]
    intro a
    rw [List.count_set _ _ _ _ (by simpa using hj), List.count_set _ _ _ _ hi,
      List.getElem_set]
    have h1 : (if xs[i] == a then 1 else 0) ≤ xs.count a := by
      split
      · rename_i h
        have : xs[i] = a := by simpa using h
        exact List.count_pos_iff.2 (this ▸ List.getElem_mem hi)
      · exact Nat.zero_le _
    have h2 : (if xs[j] == a then 1 else 0) ≤ xs.count a := by
      split
      · rename_i h
        have : xs[j] = a := by simpa using h
        exact List.count_pos_iff.2 (this ▸ List.getElem_mem hj)
      · exact Nat.zero_le _
    by_cases hij : i = j
    · subst hij
      simp only [if_true]
      omega
    · simp only [hij, if_false]
      omega
  · exact List.Perm.refl xs

theorem length_shuffleLoop {α : Type} (draw : Nat → Nat) (k : Nat) :
    ∀ xs : List α, (shuffleLoop draw k xs).length = xs.length := by
  induction k with
  | zero => intro xs; rfl
  | succ k ih => intro xs; rw [shuffleLoop, ih, length_swap]

theorem shuffleLoop_perm {α : Type} (draw : Nat → Nat) (k : Nat) :
    ∀ xs : List α, (shuffleLoop draw k xs).Perm xs := by
  induction k with
  | zero => intro xs; exact List.Perm.refl xs
  | succ k ih => intro xs; rw [shuffleLoop]; exact (ih _).trans (swap_perm xs _ _)

theorem getElem?_shuffleLoop_of_lt {α : Type} (draw : Nat → Nat) (hdraw : ∀ i, draw i ≤ i)
    (k : Nat) : ∀ (xs : List α) (m : Nat), k < m → (shuffleLoop draw k xs)[m]? = xs[m]? := by
  induction k with
  | zero => intro xs m _; rfl
  | succ k ih =>
    intro xs m hm
    rw [shuffleLoop, ih _ m (by omega)]
    by_cases hk : k + 1 < xs.length
    · have hd := hdraw (k + 1)
      rw [getElem?_swap xs (k + 1) (draw (k + 1)) m hk (by omega),
        if_neg (by omega), if_neg (by omega)]
    · rw [swap_eq_self_of_le xs _ _ (by omega)]

theorem shuffleLoop_congr {α : Type} (d d' : Nat → Nat) (k : Nat) :
    ∀ xs : List α, (∀ i, 1 ≤ i → i ≤ k → d i = d' i) →
      shuffleLoop d k xs = shuffleLoop d' k xs := by
  induction k with
  | zero => intro xs _; rfl
  | succ k ih =>
    intro xs h
    rw [shuffleLoop, shuffleLoop, h (k + 1) (by omega) (le_refl _)]
    exact ih _ (fun i h1 h2 => h i h1 (by omega))

theorem shuffleLoop_injective {α : Type} (d d' : Nat → Nat) (hd : ∀ i, d i ≤ i)
    (hd' : ∀ i, d' i ≤ i) (k : Nat) :
    ∀ xs : List α, xs.Nodup → k < xs.length →
      shuffleLoop d k xs = shuffleLoop d' k xs → ∀ i, 1 ≤ i → i ≤ k → d i = d' i := by
  induction k with
  | zero => intro xs _ _ _ i h1 h2; omega
  | succ k ih =>
    intro xs hnd hk heq i h1 h2
    have hlast : d (k + 1) = d' (k + 1) := by
      have e1 := getElem?_shuffleLoop_of_lt d hd k (swap xs (k + 1) (d (k + 1))) (k + 1)
        (by omega)
      have e2 := getElem?_shuffleLoop_of_lt d' hd' k (swap xs (k + 1) (d' (k + 1))) (k + 1)
        (by omega)
      have b1 := hd (k + 1)
      have b2 := hd' (k + 1)
      rw [shuffleLoop, shuffleLoop] at heq
      rw [heq, e2] at e1
      have s1 : (swap xs (k + 1) (d (k + 1)))[k + 1]? = xs[d (k + 1)]? := by
        rw [getElem?_swap xs _ _ _ hk (by omega)]
        split
        · rename_i h; rw [← h]
        · simp
      have s2 : (swap xs (k + 1) (d' (k + 1)))[k + 1]? = xs[d' (k + 1)]? := by
        rw [getElem?_swap xs _ _ _ hk (by omega)]
        split
        · rename_i h; rw [← h]
        · simp
      rw [s1, s2, List.getElem?_eq_getElem (show d' (k + 1) < xs.length by omega),
        List.getElem?_eq_getElem (show d (k + 1) < xs.length by omega)] at e1
      exact ((hnd.getElem_inj_iff).1 (Option.some.inj e1)).symm
    rcases Nat.eq_or_lt_of_le h2 with h | h
    · rw [h]; exact hlast
    · rw [shuffleLoop, shuffleLoop, ← hlast] at heq
      exact ih (swap xs (k + 1) (d (k + 1))) ((swap_perm xs _ _).nodup_iff.2 hnd)
        (by rw [length_swap]; omega) heq i h1 (by omega)

theorem take_perm_of_agree {α : Type} (l xs : List α) (k : Nat) (hp : l.Perm xs)
    (hag : ∀ m, k ≤ m → l[m]? = xs[m]?) : (l.take k).Perm (xs.take k) := by
  have hdrop : l.drop k = xs.drop k := by
    apply List.ext_getElem?
    intro m
    rw [List.getElem?_drop, List.getElem?_drop]
    exact hag _ (by omega)
  have h := hp
  rw [← List.take_append_drop k l, ← List.take_append_drop k xs, hdrop] at h
  exact (List.perm_append_right_iff _).1 h

theorem shuffleLoop_surjective {α : Type} (k : Nat) :
    ∀ xs l : List α, l.Perm xs → k < xs.length → (∀ m, k < m → l[m]? = xs[m]?) →
      ∃ d : Nat → Nat, (∀ i, d i ≤ i) ∧ shuffleLoop d k xs = l := by
  induction k with
  | zero =>
    intro xs l hp _ hag
    refine ⟨fun _ => 0, fun i => Nat.zero_le i, ?_⟩
    have ht := take_perm_of_agree l xs 1 hp (fun m hm => hag m (by omega))
    have hlen := hp.length_eq
    have h0 : l[0]? = xs[0]? := by
      cases l with
      | nil =>
        cases xs with
        | nil => rfl
        | cons b t' => simp at hlen
      | cons a t =>
        cases xs with
        | nil => simp at hlen
        | cons b t' =>
          simp only [List.take_succ_cons, List.take_zero, List.singleton_perm_singleton] at ht
          simp [ht]
    show xs = l
    apply List.ext_getElem?
    intro m
    rcases Nat.eq_zero_or_pos m with h | h
    · rw [h, h0]
    · rw [hag m h]
  | succ k ih =>
    intro xs l hp hk hag
    have hlen := hp.length_eq
    have ht := take_perm_of_agree l xs (k + 2) hp (fun m hm => hag m (by omega))
    have hmem : l[k + 1] ∈ l.take (k + 2) := by
      rw [List.mem_iff_getElem?]
      exact ⟨k + 1, by
        rw [List.getElem?_take_of_lt (by omega), List.getElem?_eq_getElem (by omega)]⟩
    rw [ht.mem_iff, List.mem_iff_getElem?] at hmem
    obtain ⟨j, hjeq⟩ := hmem
    have hjk : j < k + 2 := by
      by_contra hge
      rw [List.getElem?_take_eq_none (by omega)] at hjeq
      exact Option.noConfusion hjeq
    rw [List.getElem?_take_of_lt hjk] at hjeq
    have hjl : j < xs.length := by
      by_contra hge
      rw [List.getElem?_eq_none (by omega)] at hjeq
      exact Option.noConfusion hjeq
    have hlk : l[k + 1]? = xs[j]? := by
      rw [hjeq, List.getElem?_eq_getElem (by omega)]
    obtain ⟨d0, hd0, hloop⟩ := ih (swap xs (k + 1) j) l
      (hp.trans (swap_perm xs _ _).symm) (by rw [length_swap]; omega) (by
        intro m hm
        rw [getElem?_swap xs _ _ _ hk hjl]
        by_cases h1 : m = j
        · have : m = k + 1 := by omega
          rw [if_pos h1, this]
          rw [hlk, ← h1, this]
        · rw [if_neg h1]
          by_cases h2 : m = k + 1
          · rw [if_pos h2, h2, hlk]
          · rw [if_neg h2]
            exact hag m (by omega))
    refine ⟨fun i => if i = k + 1 then j else d0 i, fun i => ?_, ?_⟩
    · show (if i = k + 1 then j else d0 i) ≤ i
      split
      · omega
      · exact hd0 i
    · rw [shuffleLoop, if_pos rfl, ← hloop]
      apply shuffleLoop_congr
      intro i _ h2
      show (if i = k + 1 then j else d0 i) = d0 i
      rw [if_neg (by omega)]

theorem DrawSeq.draw_le {n : Nat} (s : DrawSeq n) (i : Nat) : s.draw i ≤ i := by
  unfold DrawSeq.draw
  split
  · rename_i h
    have := (s ⟨i - 1, by omega⟩).isLt
    simp only at this
    omega
  · exact Nat.zero_le i

theorem DrawSeq.draw_succ {n : Nat} (s : DrawSeq n) (k : Fin (n - 1)) :
    s.draw (k.val + 1) = (s k).val := by
  have hk := k.isLt
  unfold DrawSeq.draw
  rw [dif_pos ⟨by omega, by omega⟩]
  rfl

theorem card_drawSeq (n : Nat) : Fintype.card (DrawSeq n) = n.factorial := by
  have hprod : ∀ m : Nat, ∏ i in Finset.range m, (i + 2) = (m + 1).factorial := by
    intro m
    induction m with
    | zero => rfl
    | succ m ih => rw [Finset.prod_range_succ, ih, Nat.factorial_succ (m + 1)]; ring
  rw [Fintype.card_pi]
  simp only [Fintype.card_fin]
  rw [Fin.prod_univ_eq_prod_range (fun i => i + 2) (n - 1), hprod]
  cases n with
  | zero => rfl
  | succ n => rfl

theorem shuffle_existsUnique {α : Type} (items l : List α) (hnd : items.Nodup)
    (hp : l.Perm items) : ∃! s : DrawSeq items.length, shuffle s.draw items = l := by
  have hlen := hp.length_eq
  rcases Nat.eq_zero_or_pos items.length with h0 | hpos
  · have hi : items = [] := List.length_eq_zero.1 h0
    have hl : l = [] := List.length_eq_zero.1 (by omega)
    subst hi hl
    refine ⟨fun k => absurd k.isLt (by simp), rfl, fun s' _ => ?_⟩
    funext k
    exact absurd k.isLt (by simp)
  · obtain ⟨d, hd, hloop⟩ := shuffleLoop_surjective (items.length - 1) items l hp (by omega)
      (fun m hm => by
        rw [List.getElem?_eq_none (by omega), List.getElem?_eq_none (by omega)])
    refine ⟨fun k => ⟨d (k.val + 1), by have := hd (k.val + 1); omega⟩, ?_, ?_⟩
    · show shuffle _ items = l
      rw [← hloop]
      apply shuffleLoop_congr
      intro i h1 h2
      unfold DrawSeq.draw
      rw [dif_pos ⟨h1, by omega⟩]
      show d (i - 1 + 1) = d i
      rw [Nat.sub_add_cancel h1]
    · intro s' hs'
      funext k
      apply Fin.ext
      show (s' k).val = d (k.val + 1)
      have hk := k.isLt
      have hinj := shuffleLoop_injective s'.draw d s'.draw_le hd (items.length - 1) items hnd
        (by omega) (by rw [hloop]; exact hs') (k.val + 1) (by omega) (by omega)
      rw [← hinj, DrawSeq.draw_succ]

/-- C9: under `order = 'random'`, whatever the draws `0 <= j <= i`, the
shuffled list is a permutation of `items`: same elements with the same
multiplicities, and the same length. -/
theorem shuffle_perm {α : Type} (draw : Nat → Nat) (items : List α)
    (_hdraw : ∀ i, draw i ≤ i) :
    (shuffle draw items).Perm items ∧ (shuffle draw items).length = items.length :=
  ⟨shuffleLoop_perm draw _ items, length_shuffleLoop draw _ items⟩

/-- C9 on four items, every draw being `0`. -/
theorem shuffle_perm_witness :
    (shuffle (fun _ => 0) [10, 20, 30, 40]).Perm [10, 20, 30, 40] ∧
      (shuffle (fun _ => 0) [10, 20, 30, 40]).length = [10, 20, 30, 40].length :=
  shuffle_perm (fun _ => 0) [10, 20, 30, 40] (fun i => Nat.zero_le i)

/-- C10: for `n` pairwise distinct items, every draw sequence yields an
ordering of the items, every ordering is the result of exactly one draw
sequence, there are `n!` draw sequences and `n!` orderings; hence, counting
draw sequences uniformly, each ordering has probability `1 / n!`. -/
theorem shuffle_bijective {α : Type} [DecidableEq α] (items : List α) (hnd : items.Nodup) :
    (∀ s : DrawSeq items.length, (shuffle s.draw items).Perm items) ∧
    (∀ l : List α, l.Perm items → ∃! s : DrawSeq items.length, shuffle s.draw items = l) ∧
    Fintype.card (DrawSeq items.length) = items.length.factorial ∧
    (items.permutations.length = items.length.factorial ∧ items.permutations.Nodup ∧
      ∀ l : List α, l ∈ items.permutations ↔ l.Perm items) ∧
    (∀ l : List α, l.Perm items →
      ((Finset.univ.filter (fun s : DrawSeq items.length => shuffle s.draw items = l)).card : ℚ)
          / (Fintype.card (DrawSeq items.length) : ℚ) =
        1 / (items.length.factorial : ℚ)) := by
  refine ⟨fun s => shuffleLoop_perm s.draw _ items,
    fun l hp => shuffle_existsUnique items l hnd hp, card_drawSeq items.length,
    ⟨List.length_permutations items, List.nodup_permutations items hnd,
      fun l => List.mem_permutations⟩, ?_⟩
  intro l hp
  obtain ⟨s, hs, huniq⟩ := shuffle_existsUnique items l hnd hp
  have hcard : (Finset.univ.filter
      (fun s : DrawSeq items.length => shuffle s.draw items = l)).card = 1 := by
    rw [Finset.card_eq_one]
    refine ⟨s, ?_⟩
    ext t
    simp only [Finset.mem_filter, Finset.mem_univ, true_and, Finset.mem_singleton]
    exact ⟨fun ht => huniq t ht, fun ht => ht ▸ hs⟩
  rw [hcard, card_drawSeq]
  simp

/-- C10 on three distinct items. -/
theorem shuffle_bijective_witness :
    (∀ l : List Nat, l.Perm [1, 2, 3] →
      ∃! s : DrawSeq [1, 2, 3].length, shuffle s.draw [1, 2, 3] = l) ∧
    Fintype.card (DrawSeq [1, 2, 3].length) = [1, 2, 3].length.factorial :=
  ⟨(shuffle_bijective [1, 2, 3] (by decide)).2.1,
   (shuffle_bijective [1, 2, 3] (by decide)).2.2.1⟩

/-! ## The stall watchdog -/

theorem Watchdog.tick_interval (w : Watchdog) (currentBytes : Nat)
    (h : w.pollingInterval = min (10000 + 5000 * w.noProgressCount) 60000) :
    (w.tick currentBytes).pollingInterval =
      min (10000 + 5000 * (w.tick currentBytes).noProgressCount) 60000 := by
  unfold Watchdog.tick maxPollingInterval
  rw [Nat.min_def] at h
  split
  · simp only [Nat.min_def]
    split_ifs at h ⊢ <;> omega
  · split
    · simp
    · rename_i h1 h2
      simp only [Nat.min_def]
      split_ifs at h ⊢ <;> omega

theorem Watchdog.foldl_interval (observed : List Nat) :
    ∀ w : Watchdog, w.pollingInterval = min (10000 + 5000 * w.noProgressCount) 60000 →
      (observed.foldl Watchdog.tick w).pollingInterval =
        min (10000 + 5000 * (observed.foldl Watchdog.tick w).noProgressCount) 60000 := by
  induction observed with
  | nil => intro w h; exact h
  | cons b rest ih => intro w h; exact ih _ (Watchdog.tick_interval w b h)

theorem Watchdog.run_interval (observed : List Nat) :
    (Watchdog.run observed).pollingInterval =
      min (10000 + 5000 * (Watchdog.run observed).noProgressCount) 60000 :=
  Watchdog.foldl_interval observed Watchdog.init (by decide)

theorem Watchdog.run_append (observed : List Nat) (currentBytes : Nat) :
    Watchdog.run (observed ++ [currentBytes]) = (Watchdog.run observed).tick currentBytes := by
  simp [Watchdog.run, List.foldl_append]

/-- C11: after every sequence of ticks
`pollingInterval = min(10000 + 5000 * noProgressCount, 60000)`. A further tick
that observes an unchanged byte count increments `noProgressCount`, does not
decrease `pollingInterval`, adds 5000 to it while it is below 60000 and leaves
it at most 60000; a further tick that observes a changed byte count leaves
`noProgressCount = 0` and `pollingInterval = 10000`. -/
theorem watchdog_interval (observed : List Nat) (currentBytes : Nat) :
    (Watchdog.run observed).pollingInterval =
      min (10000 + 5000 * (Watchdog.run observed).noProgressCount) 60000 ∧
    (currentBytes = (Watchdog.run observed).lastProgressBytes →
      (Watchdog.run (observed ++ [currentBytes])).noProgressCount =
        (Watchdog.run observed).noProgressCount + 1 ∧
      (Watchdog.run observed).pollingInterval ≤
        (Watchdog.run (observed ++ [currentBytes])).pollingInterval ∧
      (Watchdog.run (observed ++ [currentBytes])).pollingInterval ≤ 60000 ∧
      ((Watchdog.run observed).pollingInterval < 60000 →
        (Watchdog.run (observed ++ [currentBytes])).pollingInterval =
          (Watchdog.run observed).pollingInterval + 5000)) ∧
    (currentBytes ≠ (Watchdog.run observed).lastProgressBytes →
      (Watchdog.run (observed ++ [currentBytes])).noProgressCount = 0 ∧
      (Watchdog.run (observed ++ [currentBytes])).pollingInterval = 10000) := by
  have hinv := Watchdog.run_interval observed
  have hinv2 := Watchdog.run_interval (observed ++ [currentBytes])
  rw [Watchdog.run_append] at hinv2 ⊢
  refine ⟨hinv, fun heq => ?_, fun hne => ?_⟩
  · have hc : ((Watchdog.run observed).tick currentBytes).noProgressCount =
        (Watchdog.run observed).noProgressCount + 1 := by
      simp [Watchdog.tick, heq]
    have hp : ((Watchdog.run observed).tick currentBytes).pollingInterval =
        if (Watchdog.run observed).pollingInterval < 60000 then
          (Watchdog.run observed).pollingInterval + 5000
        else (Watchdog.run observed).pollingInterval := by
      simp [Watchdog.tick, heq, maxPollingInterval]
    rw [Nat.min_def] at hinv
    refine ⟨hc, ?_, ?_, ?_⟩
    · rw [hp]; split <;> omega
    · rw [hp]; split_ifs at hinv ⊢ <;> omega
    · intro hlt; rw [hp, if_pos hlt]
  · have hc : ((Watchdog.run observed).tick currentBytes).noProgressCount = 0 := by
      unfold Watchdog.tick
      rw [if_neg hne]
      split
      · rfl
      · rename_i h0
        simp only
        omega
    refine ⟨hc, ?_⟩
    rw [hinv2, hc]
    rfl

/-- C11 on three ticks: two stalls at 0 bytes, then 4096 bytes received. -/
theorem watchdog_interval_witness :
    ((Watchdog.run ([0] ++ [0])).noProgressCount = (Watchdog.run [0]).noProgressCount + 1 ∧
      (Watchdog.run [0]).pollingInterval ≤ (Watchdog.run ([0] ++ [0])).pollingInterval ∧
      (Watchdog.run ([0] ++ [0])).pollingInterval ≤ 60000 ∧
      ((Watchdog.run [0]).pollingInterval < 60000 →
        (Watchdog.run ([0] ++ [0])).pollingInterval =
          (Watchdog.run [0]).pollingInterval + 5000)) ∧
    ((Watchdog.run ([0, 0] ++ [4096])).noProgressCount = 0 ∧
      (Watchdog.run ([0, 0] ++ [4096])).pollingInterval = 10000) :=
  ⟨(watchdog_interval [0] 0).2.1 (by decide), (watchdog_interval [0, 0] 4096).2.2 (by decide)⟩

/-- C12, evaluated on a transfer that is stalled at 0 bytes: after the first
tick `pollingInterval` is 15000 and after the second 20000, but the timer still
waits 10000 ms before the next tick. -/
theorem timer_delay_stays_at_base :
    (Watchdog.run [0]).pollingInterval = 15000 ∧ timerDelay [0] = 10000 ∧
    (Watchdog.run [0, 0]).pollingInterval = 20000 ∧ timerDelay [0, 0] = 10000 := by
  decide

/-! ## The progress handler -/

theorem createProgressBar_of_le (downloadedBytes totalBytes : Nat) (ht : 0 < totalBytes)
    (hd : downloadedBytes ≤ totalBytes) :
    progressPercent downloadedBytes totalBytes ≤ 100 ∧
      ∃ bar, createProgressBar (progressPercent downloadedBytes totalBytes) 20 = some bar ∧
        bar.length = 20 := by
  have hp : progressPercent downloadedBytes totalBytes ≤ 100 := by
    unfold progressPercent
    apply Nat.le_of_lt_succ
    rw [Nat.div_lt_iff_lt_mul (by omega)]
    omega
  refine ⟨hp, ?_⟩
  generalize progressPercent downloadedBytes totalBytes = p at hp
  have hf : (2 * p * 20 + 100) / 200 ≤ 20 := by omega
  unfold createProgressBar
  simp only
  rw [if_neg (by omega)]
  refine ⟨_, rfl, ?_⟩
  simp only [List.length_append, List.length_replicate]
  omega

theorem onData_of_not_due (totalBytes : Nat) (st : ProgressState) (chunkLength : Nat)
    (now : Int)
    (h : ¬ (totalBytes > 0 ∧
      (now - st.lastProgressTime > 500 ∨ st.downloadedBytes + chunkLength = totalBytes))) :
    onData totalBytes st chunkLength now =
      ({ downloadedBytes := st.downloadedBytes + chunkLength,
         lastProgressTime := st.lastProgressTime }, .silent) := by
  simp only [onData, if_neg h]

theorem onData_of_due_le (totalBytes : Nat) (st : ProgressState) (chunkLength : Nat)
    (now : Int)
    (h : totalBytes > 0 ∧
      (now - st.lastProgressTime > 500 ∨ st.downloadedBytes + chunkLength = totalBytes))
    (hle : st.downloadedBytes + chunkLength ≤ totalBytes) :
    ∃ bar, onData totalBytes st chunkLength now =
      ({ downloadedBytes := st.downloadedBytes + chunkLength, lastProgressTime := now },
        .event bar) := by
  obtain ⟨bar, hbar, _⟩ :=
    (createProgressBar_of_le (st.downloadedBytes + chunkLength) totalBytes h.1 hle).2
  exact ⟨bar, by simp only [onData, if_pos h, hbar]⟩

theorem dataOutcomes_cons_of_le (totalBytes : Nat) (st : ProgressState) (chunkLength : Nat)
    (now : Int) (rest : List (Nat × Int))
    (hle : st.downloadedBytes + chunkLength ≤ totalBytes) :
    progressEvents totalBytes st ((chunkLength, now) :: rest) =
      decide (0 < totalBytes ∧
        (now - st.lastProgressTime > 500 ∨ st.downloadedBytes + chunkLength = totalBytes)) ::
      progressEvents totalBytes
        { downloadedBytes := st.downloadedBytes + chunkLength
          lastProgressTime :=
            if 0 < totalBytes ∧
                (now - st.lastProgressTime > 500 ∨
                  st.downloadedBytes + chunkLength = totalBytes) then now
            else st.lastProgressTime } rest := by
  by_cases h : totalBytes > 0 ∧
      (now - st.lastProgressTime > 500 ∨ st.downloadedBytes + chunkLength = totalBytes)
  · obtain ⟨bar, hbar⟩ := onData_of_due_le totalBytes st chunkLength now h hle
    simp only [progressEvents, dataOutcomes, hbar, List.map_cons, DataOutcome.emitted]
    rw [if_pos h, decide_eq_true h]
  · have hs := onData_of_not_due totalBytes st chunkLength now h
    simp only [progressEvents, dataOutcomes, hs, List.map_cons, DataOutcome.emitted]
    rw [if_neg h, decide_eq_false h]

theorem progressEvents_getElem? (totalBytes : Nat) (arrivals : List (Nat × Int)) :
    ∀ (st : ProgressState) (k : Nat) (c : Nat × Int), arrivals[k]? = some c →
      st.downloadedBytes + ((arrivals.take (k + 1)).map Prod.fst).sum ≤ totalBytes →
      (progressEvents totalBytes st arrivals)[k]? =
        some (decide (0 < totalBytes ∧
          (c.2 - lastEventTime st.lastProgressTime
              (((arrivals.map Prod.snd).zip (progressEvents totalBytes st arrivals)).take k)
                > 500 ∨
            st.downloadedBytes + ((arrivals.take (k + 1)).map Prod.fst).sum = totalBytes))) := by
  induction arrivals with
  | nil => intro st k c h; simp at h
  | cons a rest ih =>
    intro st k c h hle
    obtain ⟨chunkLength, now⟩ := a
    have hhead : st.downloadedBytes + chunkLength ≤ totalBytes := by
      simp only [List.take_succ_cons, List.map_cons, List.sum_cons] at hle
      omega
    rw [dataOutcomes_cons_of_le totalBytes st chunkLength now rest hhead]
    cases k with
    | zero =>
      simp only [List.getElem?_cons_zero, Option.some.injEq] at h
      subst h
      simp [lastEventTime]
    | succ k =>
      simp only [List.getElem?_cons_succ] at h
      simp only [List.take_succ_cons, List.map_cons, List.sum_cons] at hle
      have := ih
        { downloadedBytes := st.downloadedBytes + chunkLength
          lastProgressTime :=
            if 0 < totalBytes ∧
                (now - st.lastProgressTime > 500 ∨
                  st.downloadedBytes + chunkLength = totalBytes) then now
            else st.lastProgressTime } k c h (by simp only; omega)
      simp only [List.getElem?_cons_succ, List.map_cons, List.zip_cons_cons,
        List.take_succ_cons, lastEventTime, List.sum_cons]
      rw [this]
      simp only [decide_eq_true_eq, Nat.add_assoc]
      rfl

theorem progressEvents_total_zero (arrivals : List (Nat × Int)) :
    ∀ st : ProgressState, ∀ e ∈ progressEvents 0 st arrivals, e = false := by
  induction arrivals with
  | nil => intro st e he; simp [progressEvents, dataOutcomes] at he
  | cons a rest ih =>
    intro st e he
    obtain ⟨chunkLength, now⟩ := a
    have hs := onData_of_not_due 0 st chunkLength now (by simp)
    simp only [progressEvents, dataOutcomes, hs, List.map_cons, DataOutcome.emitted,
      List.mem_cons] at he
    rcases he with he | he
    · exact he
    · exact ih _ e he

theorem length_progressEvents_of_le (totalBytes : Nat) (arrivals : List (Nat × Int)) :
    ∀ st : ProgressState,
      st.downloadedBytes + (arrivals.map Prod.fst).sum ≤ totalBytes →
      (progressEvents totalBytes st arrivals).length = arrivals.length := by
  induction arrivals with
  | nil => intro st _; rfl
  | cons a rest ih =>
    intro st hle
    obtain ⟨chunkLength, now⟩ := a
    simp only [List.map_cons, List.sum_cons] at hle
    rw [dataOutcomes_cons_of_le totalBytes st chunkLength now rest (by omega)]
    simp only [List.length_cons, Nat.add_right_cancel_iff]
    exact ih _ (by simp only; omega)

/-- C15, as the code has it by design. On a chunk up to which no more bytes
have arrived than the reported total, the handler emits a progress event
exactly when the total is above 0 and either more than 500 ms have passed since
the previous emitted event (since the start of the transfer when there was
none) or the bytes received so far equal the reported total. With a total of 0
(no `content-length`) no chunk emits an event. The last chunk of a transfer
whose chunk sizes add up to a reported total above 0 emits an event. What
happens once more bytes than announced have arrived is not part of the
statement. -/
theorem progress_event_iff (totalBytes : Nat) (start : Int) (arrivals : List (Nat × Int)) :
    (∀ (k : Nat) (c : Nat × Int), arrivals[k]? = some c →
      ((arrivals.take (k + 1)).map Prod.fst).sum ≤ totalBytes →
      (progressEvents totalBytes { downloadedBytes := 0, lastProgressTime := start }
          arrivals)[k]? =
        some (decide (0 < totalBytes ∧
          (c.2 - lastEventTime start
              (((arrivals.map Prod.snd).zip
                (progressEvents totalBytes { downloadedBytes := 0, lastProgressTime := start }
                  arrivals)).take k) > 500 ∨
            ((arrivals.take (k + 1)).map Prod.fst).sum = totalBytes)))) ∧
    (totalBytes = 0 →
      ∀ e ∈ progressEvents totalBytes { downloadedBytes := 0, lastProgressTime := start }
        arrivals, e = false) ∧
    (0 < totalBytes → arrivals ≠ [] → (arrivals.map Prod.fst).sum = totalBytes →
      (progressEvents totalBytes { downloadedBytes := 0, lastProgressTime := start }
        arrivals).getLast? = some true) := by
  have hmain : ∀ (k : Nat) (c : Nat × Int), arrivals[k]? = some c →
      ((arrivals.take (k + 1)).map Prod.fst).sum ≤ totalBytes →
      (progressEvents totalBytes { downloadedBytes := 0, lastProgressTime := start }
          arrivals)[k]? =
        some (decide (0 < totalBytes ∧
          (c.2 - lastEventTime start
              (((arrivals.map Prod.snd).zip
                (progressEvents totalBytes { downloadedBytes := 0, lastProgressTime := start }
                  arrivals)).take k) > 500 ∨
            ((arrivals.take (k + 1)).map Prod.fst).sum = totalBytes))) := by
    intro k c h hle
    have := progressEvents_getElem? totalBytes arrivals
      { downloadedBytes := 0, lastProgressTime := start } k c h (by simpa using hle)
    simpa using this
  refine ⟨hmain, ?_, ?_⟩
  · intro h0 e he
    subst h0
    exact progressEvents_total_zero arrivals _ e he
  · intro hpos hne hsum
    have hlen := length_progressEvents_of_le totalBytes arrivals
      { downloadedBytes := 0, lastProgressTime := start } (by simp only; omega)
    have hpos' : 0 < arrivals.length := List.length_pos.2 hne
    rw [List.getLast?_eq_getElem?, hlen]
    have hc : arrivals[arrivals.length - 1]? = some (arrivals[arrivals.length - 1]) :=
      List.getElem?_eq_getElem (by omega)
    have htake : arrivals.take (arrivals.length - 1 + 1) = arrivals :=
      List.take_of_length_le (by omega)
    rw [hmain _ _ hc (by rw [htake]; omega), htake]
    simp [hpos, hsum]

/-- C15 (amended) on a transfer of 300 bytes reported as 300: the chunks arrive
100, 700 and 800 ms after the start; the second (more than 500 ms) and the
third (completion) emit an event; with a total of 0 none does. -/
theorem progress_event_iff_witness :
    (progressEvents 300 { downloadedBytes := 0, lastProgressTime := 0 }
        [(100, 100), (100, 700), (100, 800)])[1]? =
      some (decide (0 < 300 ∧
        (((100 : Nat), (700 : Int)).2 - lastEventTime 0
            ((([(100, 100), (100, 700), (100, 800)].map Prod.snd).zip
              (progressEvents 300 { downloadedBytes := 0, lastProgressTime := 0 }
                [(100, 100), (100, 700), (100, 800)])).take 1) > 500 ∨
          (([((100 : Nat), (100 : Int)), (100, 700), (100, 800)].take (1 + 1)).map
            Prod.fst).sum = 300))) ∧
    (∀ e ∈ progressEvents 0 { downloadedBytes := 0, lastProgressTime := 0 }
      [(100, 100), (100, 700), (100, 800)], e = false) ∧
    (progressEvents 300 { downloadedBytes := 0, lastProgressTime := 0 }
      [(100, 100), (100, 700), (100, 800)]).getLast? = some true :=
  ⟨(progress_event_iff 300 0 [(100, 100), (100, 700), (100, 800)]).1 1 (100, 700)
     (by decide) (by decide),
   (progress_event_iff 0 0 [(100, 100), (100, 700), (100, 800)]).2.1 rfl,
   (progress_event_iff 300 0 [(100, 100), (100, 700), (100, 800)]).2.2 (by decide)
     (by decide) (by decide)⟩

/-- C15 as stated fails in two ways: without a `content-length` (total 0) a
chunk arriving 1000 ms after the start emits nothing; and when the stream
delivers 120 bytes against a reported total of 100, the final chunk, 10 ms
after the previous event, emits nothing. -/
theorem progress_event_missing :
    progressEvents 0 { downloadedBytes := 0, lastProgressTime := 0 } [(4096, 1000)] = [false] ∧
    progressEvents 100 { downloadedBytes := 0, lastProgressTime := 0 }
      [(60, 600), (60, 610)] = [true, false] := by
  decide

/-! ## Names derived from URLs -/

/-- C16, evaluated: a query string containing `/` is not stripped, the name is
what follows its last `/`; and a query after a URL that ends in `/` empties the
name. Without the query the names are `a.jpg` and `photos`. -/
theorem urlFilename_query_with_slash :
    urlFilename "https://mars.nasa.gov/img/a.jpg?path=raw/full".toList = "full".toList ∧
    urlFilename "https://mars.nasa.gov/img/a.jpg".toList = "a.jpg".toList ∧
    urlFilename "https://mars.nasa.gov/photos/?page=2".toList = [] ∧
    urlFilename "https://mars.nasa.gov/photos/".toList = "photos".toList := by
  decide

/-! ## Batches without a successful item -/

/-- C17, as the code has it: the empty-result message is returned exactly when
the upstream answer has no candidates; whenever there is a candidate the
result is the completion summary, also when its manifest is empty. -/
theorem empty_result_iff (rover : Str) (count : Nat) (dir0 : List Str)
    (photos : List (Photo × FetchOutcome)) (media_type order : Str) (mediaCount : Nat)
    (draw : Nat → Nat) (mediaDir0 : List Str) (items : List (MediaItem × ItemEnv)) :
    (downloadMarsPhotos rover count dir0 photos = .notFound ↔ photos = []) ∧
    (downloadNASAMedia media_type order mediaCount draw mediaDir0 items = .notFound ↔
      items = []) ∧
    (photos ≠ [] → ∃ st, downloadMarsPhotos rover count dir0 photos = .completed st) ∧
    (items ≠ [] →
      ∃ st, downloadNASAMedia media_type order mediaCount draw mediaDir0 items =
        .completed st) := by
  unfold downloadMarsPhotos downloadNASAMedia
  refine ⟨?_, ?_, ?_, ?_⟩
  · by_cases h : photos = []
    · simp [h]
    · simp [h]
  · by_cases h : items = []
    · simp [h]
    · simp [h]
  · intro h
    simp [h]
  · intro h
    simp [h]

/-- C17 (amended) on a batch whose only photo fails to download. -/
theorem empty_result_iff_witness :
    ∃ st, downloadMarsPhotos "curiosity".toList 5 []
      [(samplePhoto "http://mars.nasa.gov/p/a.jpg".toList, .failed false)] = .completed st :=
  (empty_result_iff "curiosity".toList 5 []
    [(samplePhoto "http://mars.nasa.gov/p/a.jpg".toList, .failed false)]
    [] [] 0 (fun _ => 0) [] []).2.2.1 (by decide)

/-- C17 as stated fails: one candidate whose fetch fails gives the completion
summary with an empty manifest, not the empty-result message. -/
theorem all_failed_is_completed :
    downloadMarsPhotos "curiosity".toList 5 []
        [(samplePhoto "http://mars.nasa.gov/p/a.jpg".toList, .failed false)] =
      .completed { dir := [], existingHashes := [], downloadedFiles := [] } ∧
    downloadMarsPhotos "curiosity".toList 5 []
        [(samplePhoto "http://mars.nasa.gov/p/a.jpg".toList, .failed false)] ≠ .notFound := by
  decide

/-! ## `downloadAPOD` and the sol of `downloadMarsPhotos` -/

/-- C18, evaluated at `count = 2`, `order = 'latest'`: both pictures are
downloaded, then the call raises `ReferenceError: apod_order is not defined`
instead of returning the completion summary. -/
theorem downloadAPOD_two_raises :
    downloadAPOD 2 "latest".toList "2024-06-02".toList "2024/6/2".toList
        ["apod_data.json".toList] apodTwoDays =
      .referenceError "apod_order".toList ∧
    (apodLoop "2024-06-02".toList apodTwoDays
        { dir := ["apod_data.json".toList], downloadedFiles := [] }).downloadedFiles.map
        (fun f => f.filename) =
      ["m31_hd.jpg".toList, "ngc1300.jpg".toList] := by
  decide

/-- C19, evaluated at `rover = 'curiosity'`, `sol = 100`,
`earth_date = '2015-05-30'`: the date converts to sol 999, and the sol used for
the query is 100. -/
theorem sol_overrides_earth_date :
    earthDateToSol parseSampleDate "2015-05-30".toList "curiosity".toList = some 999 ∧
    chooseSol parseSampleDate "curiosity".toList (some 100) (some "2015-05-30".toList) =
      .usedSol (some 100) ∧
    chooseSol parseSampleDate "curiosity".toList none (some "2015-05-30".toList) =
      .usedSol (some 999) := by
  decide

/-! ## The quality ladder of `downloadNASAImage` -/

theorem isSuffixOf_append_self (b s : Str) : s.isSuffixOf (b ++ s) = true := by
  rw [List.isSuffixOf_iff_suffix]
  exact List.suffix_append b s

theorem take_append_suffix (b s : Str) : (b ++ s).take ((b ++ s).length - s.length) = b := by
  rw [List.length_append, Nat.add_sub_cancel, List.take_left']
  rfl

theorem isSuffixOf_false_of_char (b s t : Str) (i : Nat) (hi : i < t.length)
    (hs : i < s.length) (hne : t.reverse[i]? ≠ s.reverse[i]?) :
    t.isSuffixOf (b ++ s) = false := by
  cases h : t.isSuffixOf (b ++ s)
  · rfl
  · exfalso
    rw [List.isSuffixOf_iff_suffix] at h
    obtain ⟨pre, hp⟩ := h
    have hrev := congrArg List.reverse hp
    rw [List.reverse_append, List.reverse_append] at hrev
    have h1 := congrArg (fun l => l[i]?) hrev
    simp only at h1
    rw [List.getElem?_append_left (by simpa using hi),
      List.getElem?_append_left (by simpa using hs)] at h1
    exact hne h1

theorem stripQualitySuffix_append (b q : Str)
    (hq : q ∈ ["small".toList, "medium".toList, "large".toList, "orig".toList]) :
    stripQualitySuffix (b ++ "~".toList ++ q ++ ".jpg".toList) = b := by
  have hs := fun t s : Str => isSuffixOf_false_of_char b s t 4
  simp only [List.mem_cons, List.mem_singleton, List.not_mem_nil, or_false] at hq
  rcases hq with rfl | rfl | rfl | rfl
  · have e : b ++ "~".toList ++ "small".toList ++ ".jpg".toList = b ++ "~small.jpg".toList := by
      simp
    rw [e]
    unfold stripQualitySuffix
    simp only [List.find?_cons, isSuffixOf_append_self]
    exact take_append_suffix b _
  · have e : b ++ "~".toList ++ "medium".toList ++ ".jpg".toList = b ++ "~medium.jpg".toList := by
      simp
    rw [e]
    unfold stripQualitySuffix
    simp only [List.find?_cons, isSuffixOf_append_self,
      hs "~small.jpg".toList "~medium.jpg".toList (by decide) (by decide) (by decide)]
    exact take_append_suffix b _
  · have e : b ++ "~".toList ++ "large".toList ++ ".jpg".toList = b ++ "~large.jpg".toList := by
      simp
    rw [e]
    unfold stripQualitySuffix
    simp only [List.find?_cons, isSuffixOf_append_self,
      hs "~small.jpg".toList "~large.jpg".toList (by decide) (by decide) (by decide),
      hs "~medium.jpg".toList "~large.jpg".toList (by decide) (by decide) (by decide)]
    exact take_append_suffix b _
  · have e : b ++ "~".toList ++ "orig".toList ++ ".jpg".toList = b ++ "~orig.jpg".toList := by
      simp
    rw [e]
    unfold stripQualitySuffix
    simp only [List.find?_cons, isSuffixOf_append_self,
      hs "~small.jpg".toList "~orig.jpg".toList (by decide) (by decide) (by decide),
      hs "~medium.jpg".toList "~orig.jpg".toList (by decide) (by decide) (by decide),
      hs "~large.jpg".toList "~orig.jpg".toList (by decide) (by decide) (by decide)]
    exact take_append_suffix b _

theorem probeQualities_eq_find (reachable : Str → Bool) (baseUrl : Str) (l : List Str) :
    probeQualities reachable baseUrl l =
      (l.find? (fun s => reachable (baseUrl ++ s))).map (fun s => baseUrl ++ s) := by
  induction l with
  | nil => rfl
  | cons q rest ih =>
    unfold probeQualities
    cases h : reachable (baseUrl ++ q)
    · simp only [List.find?_cons, h, Bool.false_eq_true, if_false, ih]
    · simp only [List.find?_cons, h, if_true, Option.map_some']

/-- C13: for an image link `b~q.jpg` with `q` one of small, medium, large, orig,
the URL `downloadNASAImage` downloads is `b + s` for the first `s` among
`~orig.jpg`, `~large.jpg`, `~medium.jpg`, `~small.jpg` whose header-only probe
succeeds, and the link itself when no probe succeeds; when only the medium
variant is reachable it is `b~medium.jpg`. -/
theorem selectImageUrl_ladder (reachable : Str → Bool) (b q : Str)
    (hq : q ∈ ["small".toList, "medium".toList, "large".toList, "orig".toList]) :
    selectImageUrl reachable (b ++ "~".toList ++ q ++ ".jpg".toList) =
      (match ["~orig.jpg".toList, "~large.jpg".toList, "~medium.jpg".toList,
          "~small.jpg".toList].find? (fun s => reachable (b ++ s)) with
        | some s => b ++ s
        | none => b ++ "~".toList ++ q ++ ".jpg".toList) ∧
    (reachable (b ++ "~orig.jpg".toList) = false →
      reachable (b ++ "~large.jpg".toList) = false →
      reachable (b ++ "~medium.jpg".toList) = true →
      selectImageUrl reachable (b ++ "~".toList ++ q ++ ".jpg".toList) =
        b ++ "~medium.jpg".toList) := by
  have hsel : selectImageUrl reachable (b ++ "~".toList ++ q ++ ".jpg".toList) =
      (match ["~orig.jpg".toList, "~large.jpg".toList, "~medium.jpg".toList,
          "~small.jpg".toList].find? (fun s => reachable (b ++ s)) with
        | some s => b ++ s
        | none => b ++ "~".toList ++ q ++ ".jpg".toList) := by
    unfold selectImageUrl
    rw [stripQualitySuffix_append b q hq, probeQualities_eq_find]
    unfold qualities
    cases List.find? (fun s => reachable (b ++ s))
      ["~orig.jpg".toList, "~large.jpg".toList, "~medium.jpg".toList, "~small.jpg".toList] <;>
      rfl
  refine ⟨hsel, fun h1 h2 h3 => ?_⟩
  rw [hsel]
  simp only [List.find?_cons, h1, h2, h3]

/-- C13 on the scenario of the specification: the link is the small variant,
only the medium variant is reachable. -/
theorem selectImageUrl_ladder_witness :
    selectImageUrl (fun u => u = "https://images-assets.nasa.gov/image/x/x~medium.jpg".toList)
        ("https://images-assets.nasa.gov/image/x/x".toList ++ "~".toList ++ "small".toList ++
          ".jpg".toList) =
      "https://images-assets.nasa.gov/image/x/x".toList ++ "~medium.jpg".toList :=
  (selectImageUrl_ladder
    (fun u => u = "https://images-assets.nasa.gov/image/x/x~medium.jpg".toList)
    "https://images-assets.nasa.gov/image/x/x".toList "small".toList (by decide)).2
    (by decide) (by decide) (by decide)

/-! ## The choice of a video URL -/

theorem findString_eq_find (test : Str → Bool) (data : List JVal) :
    findString test data = (stringElements data).find? test := by
  induction data with
  | nil => rfl
  | cons v rest ih =>
    cases v with
    | str s =>
      simp only [findString, stringElements, List.find?_cons]
      cases test s <;> simp [ih]
    | null => simpa [findString, stringElements] using ih
    | bool b => simpa [findString, stringElements] using ih
    | num n => simpa [findString, stringElements] using ih
    | arr xs => simpa [findString, stringElements] using ih
    | obj fields => simpa [findString, stringElements] using ih

theorem findFirstPattern_none (test : Str → Str → Bool) (data : List JVal) (pats : List Str)
    (h : ∀ g ∈ pats, ∀ u ∈ stringElements data, test u g = false) :
    findFirstPattern test data pats = none := by
  induction pats with
  | nil => rfl
  | cons p rest ih =>
    have hp : findString (fun url => test url p) data = none := by
      rw [findString_eq_find, List.find?_eq_none]
      intro u hu
      simp [h p (List.mem_cons_self p rest) u hu]
    simp only [findFirstPattern, hp]
    exact ih (fun g hg => h g (List.mem_cons_of_mem p hg))

theorem findFirstPattern_first (test : Str → Str → Bool) (data : List JVal)
    (pre post : List Str) (f : Str)
    (hpre : ∀ g ∈ pre, ∀ u ∈ stringElements data, test u g = false)
    (hf : ∃ u ∈ stringElements data, test u f = true) :
    findFirstPattern test data (pre ++ f :: post) =
      (stringElements data).find? (fun u => test u f) ∧
    ((stringElements data).find? (fun u => test u f)).isSome = true := by
  have hsome : ((stringElements data).find? (fun u => test u f)).isSome = true := by
    rw [List.find?_isSome]
    exact hf
  refine ⟨?_, hsome⟩
  induction pre with
  | nil =>
    simp only [List.nil_append, findFirstPattern, findString_eq_find]
    cases hfind : (stringElements data).find? (fun u => test u f) with
    | none => rw [hfind] at hsome; simp at hsome
    | some u => rfl
  | cons p rest ih =>
    have hp : findString (fun url => test url p) data = none := by
      rw [findString_eq_find, List.find?_eq_none]
      intro u hu
      simp [hpre p (List.mem_cons_self p rest) u hu]
    simp only [List.cons_append, findFirstPattern, hp]
    exact ih (fun g hg => hpre g (List.mem_cons_of_mem p hg))

theorem findFirstPattern_eq_none_iff (test : Str → Str → Bool) (data : List JVal)
    (pats : List Str) :
    findFirstPattern test data pats = none ↔
      ∀ g ∈ pats, ∀ u ∈ stringElements data, test u g = false := by
  constructor
  · intro h
    induction pats with
    | nil => intro g hg; simp at hg
    | cons p rest ih =>
      simp only [findFirstPattern] at h
      cases hfind : findString (fun url => test url p) data with
      | some u => rw [hfind] at h; simp at h
      | none =>
        rw [hfind] at h
        intro g hg u hu
        rcases List.mem_cons.1 hg with rfl | hg
        · rw [findString_eq_find, List.find?_eq_none] at hfind
          simpa using hfind u hu
        · exact ih h g hg u hu
  · exact findFirstPattern_none test data pats

/-- C14, as the code has it. For an array listing, with `urls` its string
elements in order: (a) when some preferred pattern occurs inside an element,
the choice is the first element containing the highest-priority such pattern;
(b) otherwise, when some known extension occurs inside a lower-cased element,
the choice is the first element containing the first such extension in the
order `.mp4, .mov, .m4v, .webm, .avi`; (c) otherwise the choice is the first
element that starts with `http`; no URL is chosen exactly when no string
element contains a preferred pattern or (lower-cased) a known extension or
starts with `http`. -/
theorem selectVideoUrl_array (data : List JVal) :
    (∀ (pre post : List Str) (f : Str), preferredFormats = pre ++ f :: post →
      (∀ g ∈ pre, ∀ u ∈ stringElements data, includes u g = false) →
      (∃ u ∈ stringElements data, includes u f = true) →
      selectVideoUrl (.arr data) = (stringElements data).find? (fun u => includes u f) ∧
      (selectVideoUrl (.arr data)).isSome = true) ∧
    ((∀ g ∈ preferredFormats, ∀ u ∈ stringElements data, includes u g = false) →
      ∀ (pre post : List Str) (e : Str), videoExtensions = pre ++ e :: post →
      (∀ g ∈ pre, ∀ u ∈ stringElements data, includes (toLowerCase u) g = false) →
      (∃ u ∈ stringElements data, includes (toLowerCase u) e = true) →
      selectVideoUrl (.arr data) =
        (stringElements data).find? (fun u => includes (toLowerCase u) e) ∧
      (selectVideoUrl (.arr data)).isSome = true) ∧
    ((∀ g ∈ preferredFormats, ∀ u ∈ stringElements data, includes u g = false) →
      (∀ g ∈ videoExtensions, ∀ u ∈ stringElements data,
        includes (toLowerCase u) g = false) →
      selectVideoUrl (.arr data) =
        (stringElements data).find? (fun u => startsWith u "http".toList)) ∧
    (selectVideoUrl (.arr data) = none ↔
      ∀ u ∈ stringElements data,
        (∀ g ∈ preferredFormats, includes u g = false) ∧
        (∀ g ∈ videoExtensions, includes (toLowerCase u) g = false) ∧
        startsWith u "http".toList = false) := by
  refine ⟨?_, ?_, ?_, ?_⟩
  · intro pre post f hsplit hpre hf
    have h := findFirstPattern_first (fun url format => includes url format) data pre post f
      hpre hf
    rw [← hsplit] at h
    simp only [selectVideoUrl]
    rw [h.1]
    cases hfind : (stringElements data).find? (fun u => includes u f) with
    | none => rw [hfind] at h; simp at h
    | some u => simp
  · intro hnone pre post e hsplit hpre he
    have h0 := findFirstPattern_none (fun url format => includes url format) data
      preferredFormats hnone
    have h := findFirstPattern_first (fun url ext => includes (toLowerCase url) ext) data
      pre post e hpre he
    rw [← hsplit] at h
    simp only [selectVideoUrl, h0]
    rw [h.1]
    cases hfind : (stringElements data).find? (fun u => includes (toLowerCase u) e) with
    | none => rw [hfind] at h; simp at h
    | some u => simp
  · intro hnone hnone2
    have h0 := findFirstPattern_none (fun url format => includes url format) data
      preferredFormats hnone
    have h1 := findFirstPattern_none (fun url ext => includes (toLowerCase url) ext) data
      videoExtensions hnone2
    simp only [selectVideoUrl, h0, h1, findString_eq_find]
  · simp only [selectVideoUrl]
    cases h0 : findFirstPattern (fun url format => includes url format) data preferredFormats
      with
    | some u =>
      simp only [false_iff, reduceCtorEq]
      intro hall
      have := (findFirstPattern_eq_none_iff _ data preferredFormats).2
        (fun g hg u hu => (hall u hu).1 g hg)
      rw [this] at h0
      exact Option.noConfusion h0
    | none =>
      have hn0 := (findFirstPattern_eq_none_iff _ data preferredFormats).1 h0
      cases h1 : findFirstPattern (fun url ext => includes (toLowerCase url) ext) data
        videoExtensions with
      | some u =>
        simp only [false_iff, reduceCtorEq]
        intro hall
        have := (findFirstPattern_eq_none_iff
          (fun url ext => includes (toLowerCase url) ext) data videoExtensions).2
          (fun g hg u hu => (hall u hu).2.1 g hg)
        rw [this] at h1
        exact Option.noConfusion h1
      | none =>
        have hn1 := (findFirstPattern_eq_none_iff
          (fun url ext => includes (toLowerCase url) ext) data videoExtensions).1 h1
        simp only [findString_eq_find, List.find?_eq_none]
        constructor
        · intro h u hu
          exact ⟨fun g hg => hn0 g hg u hu, fun g hg => hn1 g hg u hu, by simpa using h u hu⟩
        · intro h u hu
          rw [(h u hu).2.2]
          simp

/-- C14 (amended) on `captionFirstListing`: `~medium.mp4` is the first preferred
pattern and occurs in the first element, which is chosen. -/
theorem selectVideoUrl_array_witness :
    selectVideoUrl (.arr captionFirstListing) =
        (stringElements captionFirstListing).find?
          (fun u => includes u "~medium.mp4".toList) ∧
      (selectVideoUrl (.arr captionFirstListing)).isSome = true :=
  (selectVideoUrl_array captionFirstListing).1 [] _ "~medium.mp4".toList rfl
    (by decide) (by decide)

/-- C14 as stated fails: on `captionFirstListing` the chosen URL is the caption
file `a~medium.mp4.srt`, whose name ends with no preferred pattern and with no
known media extension, although the second element, `a~small.mp4`, is a file
whose name ends with a preferred pattern. -/
theorem selectVideoUrl_picks_caption_file :
    selectVideoUrl (.arr captionFirstListing) =
      some "https://images-assets.nasa.gov/video/a/a~medium.mp4.srt".toList ∧
    (∀ f ∈ preferredFormats,
      f.isSuffixOf "https://images-assets.nasa.gov/video/a/a~medium.mp4.srt".toList = false) ∧
    (∀ e ∈ videoExtensions,
      e.isSuffixOf
        (toLowerCase "https://images-assets.nasa.gov/video/a/a~medium.mp4.srt".toList) =
        false) ∧
    ("~small.mp4".toList).isSuffixOf
      "https://images-assets.nasa.gov/video/a/a~small.mp4".toList = true := by
  decide

/-! ## `searchInObject` -/

mutual
theorem searchInValue_eq_find : ∀ v : JVal,
    searchInValue v = (stringsOf v).find? hasVideoExtension
  | .str s => by
    simp only [searchInValue, stringsOf, List.find?_cons, List.find?_nil]
    cases hasVideoExtension s <;> rfl
  | .arr xs => by
    simp only [searchInValue, stringsOf]
    exact searchInValues_eq_find xs
  | .obj fields => by
    simp only [searchInValue, stringsOf]
    exact searchInFields_eq_find fields
  | .null => by simp [searchInValue, stringsOf]
  | .bool _ => by simp [searchInValue, stringsOf]
  | .num _ => by simp [searchInValue, stringsOf]
theorem searchInValues_eq_find : ∀ xs : List JVal,
    searchInValues xs = (stringsOfValues xs).find? hasVideoExtension
  | [] => by simp [searchInValues, stringsOfValues]
  | v :: rest => by
    simp only [searchInValues, stringsOfValues, List.find?_append]
    rw [searchInValue_eq_find v, searchInValues_eq_find rest]
    cases (stringsOf v).find? hasVideoExtension <;> rfl
theorem searchInFields_eq_find : ∀ fields : List (Str × JVal),
    searchInFields fields = (stringsOfFields fields).find? hasVideoExtension
  | [] => by simp [searchInFields, stringsOfFields]
  | (_, v) :: rest => by
    simp only [searchInFields, stringsOfFields, List.find?_append]
    rw [searchInValue_eq_find v, searchInFields_eq_find rest]
    cases (stringsOf v).find? hasVideoExtension <;> rfl
end

theorem hasVideoExtension_iff (s : Str) :
    hasVideoExtension s = true ↔
      ∃ ext ∈ videoExtensions, includes (toLowerCase s) ext = true := by
  simp [hasVideoExtension, List.any_eq_true]

theorem find_hasVideoExtension_eq_none (l : List Str) :
    l.find? hasVideoExtension = none ↔
      ∀ s ∈ l, ¬ ∃ ext ∈ videoExtensions, includes (toLowerCase s) ext = true := by
  rw [List.find?_eq_none]
  constructor
  · intro h s hs hex
    exact h s hs ((hasVideoExtension_iff s).2 hex)
  · intro h s hs hv
    exact h s hs ((hasVideoExtension_iff s).1 hv)

/-- C20: `searchInObject` is total; on a list or a map it returns the first
string value, in depth-first order (list elements by index, map fields in key
order), that contains one of `.mp4`, `.mov`, `.m4v`, `.webm`, `.avi` once
lower-cased, and it returns null exactly when no string value of the
structure contains one. -/
theorem searchInObject_first_match :
    (∀ xs : List JVal,
      searchInObject (.arr xs) =
        (stringsOf (.arr xs)).find?
          (fun s => videoExtensions.any (fun ext => includes (toLowerCase s) ext)) ∧
      (searchInObject (.arr xs) = none ↔
        ∀ s ∈ stringsOf (.arr xs),
          ¬ ∃ ext ∈ videoExtensions, includes (toLowerCase s) ext = true)) ∧
    (∀ fields : List (Str × JVal),
      searchInObject (.obj fields) =
        (stringsOf (.obj fields)).find?
          (fun s => videoExtensions.any (fun ext => includes (toLowerCase s) ext)) ∧
      (searchInObject (.obj fields) = none ↔
        ∀ s ∈ stringsOf (.obj fields),
          ¬ ∃ ext ∈ videoExtensions, includes (toLowerCase s) ext = true)) := by
  constructor
  · intro xs
    have h : searchInObject (.arr xs) = (stringsOf (.arr xs)).find? hasVideoExtension := by
      simp only [searchInObject, stringsOf]
      exact searchInValues_eq_find xs
    refine ⟨h, ?_⟩
    rw [h]
    exact find_hasVideoExtension_eq_none _
  · intro fields
    have h : searchInObject (.obj fields) =
        (stringsOf (.obj fields)).find? hasVideoExtension := by
      simp only [searchInObject, stringsOf]
      exact searchInFields_eq_find fields
    refine ⟨h, ?_⟩
    rw [h]
    exact find_hasVideoExtension_eq_none _

/-! ## The running list of `checkDuplicate` -/

theorem afterChecks_pairwise (files : List (Str × Nat)) :
    ∀ start : List HashRecord, start.Pairwise Apart →
      (afterChecks start files).Pairwise Apart := by
  induction files with
  | nil => intro start h; exact h
  | cons f rest ih =>
    intro start h
    simp only [afterChecks, List.foldl_cons]
    apply ih
    rw [checkDuplicate_snd]
    cases hscan : scanDuplicate f.1 f.2 start
    · simp only [Bool.false_eq_true, if_false]
      rw [List.pairwise_append]
      refine ⟨h, by simp, ?_⟩
      intro a ha b hb
      simp only [List.mem_singleton] at hb
      subst hb
      exact apart_of_scan_false f.1 f.2 start hscan a ha
    · simp only [if_true]
      exact h

/-- C21: when `existingHashes` starts empty and is changed only by calls of
`checkDuplicate`, after every sequence of calls any two records at different
positions have different hashes and sizes at least 1024 bytes apart. -/
theorem afterChecks_apart (files : List (Str × Nat)) (i j : Nat) (a b : HashRecord)
    (hij : i ≠ j) (hi : (afterChecks [] files)[i]? = some a)
    (hj : (afterChecks [] files)[j]? = some b) :
    a.hash ≠ b.hash ∧ 1024 ≤ Int.natAbs ((a.size : Int) - (b.size : Int)) :=
  pairwise_getElem? (R := Apart) (fun _ _ h => h.symm)
    (afterChecks_pairwise files [] List.Pairwise.nil) i j a b hij hi hj

/-- C21 on four calls: the second file is within 1024 bytes of the first and
the fourth has the hash of the third, so two records remain. -/
theorem afterChecks_apart_witness :
    "h0".toList ≠ "h2".toList ∧ 1024 ≤ Int.natAbs (((10000 : Nat) : Int) - ((30000 : Nat) : Int)) :=
  afterChecks_apart
    [("h0".toList, 10000), ("h1".toList, 10500), ("h2".toList, 30000), ("h2".toList, 90000)]
    0 1 { hash := "h0".toList, size := 10000 } { hash := "h2".toList, size := 30000 }
    (by decide) (by decide) (by decide)

/-! ## The progress bar -/

/-- C22, evaluated on a transfer announced as 100 bytes that delivers 60 bytes
after 600 ms and 60 more after 1200 ms: the first event has progress 60 and a
bar of 20 characters; the second has `downloadedBytes = 120`, progress 120,
`filled = 24`, `empty = -4`, and `createProgressBar` raises. -/
theorem progress_bar_raises_past_total :
    progressBars 100 { downloadedBytes := 0, lastProgressTime := 0 } [(60, 600), (60, 1200)] =
      [some (some (List.replicate 12 '█' ++ List.replicate 8 '░')), some none] ∧
    progressPercent 120 100 = 120 ∧
    createProgressBar 120 20 = none := by
  decide

end NasaMcp
